import Mathlib

/-!
Verification of the gpiosim library (a controller for Linux gpio-sim kernel
simulators) against its natural-language specification.

The library's behaviour is a sequence of filesystem operations on configfs
(simulator configuration trees) and sysfs (per-line pull/value attributes).
We model the filesystem shallowly: a state holds the set of directories and a
map from attribute files to their contents, plus a log of the write operations
performed (instrumentation used to state ordering properties).  External
influences (injected I/O failures, kernel-provided attribute values, symlink
checks, the mount table) are captured by an environment of oracles, so every
theorem quantifies over all behaviours of the outside world.

Functions are translated one-to-one from src/lib.rs and keep their names:
`find_configfs`, `Builder.live`, `Sim.setup_configfs`, `Sim.cleanup_configfs`,
`Sim.read_attrs`, `Chip.set_pull`, `Chip.get_pull`, `Chip.toggle`,
`Chip.get_level`, `unique_name`, `Simpleton.new`, `Direction.as_str`,
`Level.toggle`.
-/

namespace Gpiosim

/-- A path component.  Path rendering in the source uses `format!` strings
(`"bank{i}"`, `"line{offset}"`, `"hog"`); we keep the components structured,
which is a bijective renaming of the rendered names. `seg` covers literal
segments such as `"gpio-sim"` or a simulator name. -/
inductive Comp where
  | seg (s : String)
  | bank (i : Nat)
  | line (o : Nat)
  | hogd
deriving DecidableEq, Repr

/-- A filesystem path, as a list of components. -/
abbrev Path := List Comp

/-- Boolean path-prefix test (our own, to keep full control of its lemmas). -/
def pfx : Path → Path → Bool
  | [], _ => true
  | _ :: _, [] => false
  | a :: as, b :: bs => a == b && pfx as bs

/-- `q` lies strictly below directory `p`. -/
def strictUnder (p q : Path) : Bool := pfx p q && !(q == p)

/-- Remove the first occurrence of a path from a list (the semantics of
`List.erase`, defined locally so that all its lemmas are ours). -/
def ersP (p : Path) : List Path → List Path
  | [] => []
  | q :: qs => if q = p then qs else q :: ersP p qs

/-- Number of occurrences of a path in a list. -/
def cntP (p : Path) : List Path → Nat
  | [] => 0
  | q :: qs => (if q = p then 1 else 0) + cntP p qs

/-- The direction of a hogged line (src/lib.rs `Direction`). -/
inductive Direction where
  | Input
  | OutputLow
  | OutputHigh
deriving DecidableEq, Repr

/-- The exact attribute strings written for a hog direction
(src/lib.rs `Direction::as_str`). -/
def Direction.as_str : Direction → String
  | .Input => "input"
  | .OutputHigh => "output-high"
  | .OutputLow => "output-low"

/-- The physical value of a line (src/lib.rs `Level`). -/
inductive Level where
  | High
  | Low
deriving DecidableEq, Repr

/-- Toggle the level between high and low (src/lib.rs `Level::toggle`). -/
def Level.toggle : Level → Level
  | .High => .Low
  | .Low => .High

/-- The configuration for a hogged line (src/lib.rs `Hog`). -/
structure Hog where
  consumer : String
  direction : Direction
deriving DecidableEq, Repr

/-- The configuration for a single simulated chip (src/lib.rs `Bank`).
The source stores `names` and `hogs` in `HashMap`s keyed by offset; we model
them as association lists whose keys are unique (hypotheses state the key
uniqueness where a proof needs it). -/
structure Bank where
  num_lines : Nat
  label : String
  names : List (Nat × String)
  hogs : List (Nat × Hog)
deriving DecidableEq, Repr

/-- src/lib.rs `Bank::new`. -/
def Bank.new (num_lines : Nat) (label : String) : Bank :=
  { num_lines := num_lines, label := label, names := [], hogs := [] }

/-- Keys of an association list. -/
def keysOf {α : Type} (l : List (Nat × α)) : List Nat := l.map Prod.fst

/-- Membership of a key, as a Bool (mirrors `HashMap::contains_key`). -/
def hasKey {α : Type} (o : Nat) (l : List (Nat × α)) : Bool := l.any (fun e => e.1 == o)

/-- A builder of simulators (src/lib.rs `Builder`). -/
structure Builder where
  name : Option String
  banks : List Bank
deriving DecidableEq, Repr

/-- src/lib.rs `builder()` / `Builder::default()`. -/
def builderDefault : Builder := { name := none, banks := [] }

/-- src/lib.rs `Builder::with_bank` (pushes a clone of the bank). -/
def Builder.with_bank (b : Builder) (bank : Bank) : Builder :=
  { b with banks := b.banks ++ [bank] }

/-- src/lib.rs `Builder::with_name`. -/
def Builder.with_name (b : Builder) (n : String) : Builder :=
  { b with name := some n }

/-- Errors returned by gpiosim functions (src/lib.rs `Error`). -/
inductive Error where
  | ConfigfsNotFound
  | ModuleLoadError (stderr : String)
  | SimulatorExists (name : String)
  | UnexpectedValue (v : String)
  | IoError
  | CommandError (cmd : String)
deriving DecidableEq, Repr

/-- A logged filesystem write action (instrumentation: the configfs model
records the successful directory creations and attribute writes in order). -/
inductive Event where
  | mkdir (p : Path)
  | wattr (dir : Path) (file : String) (data : String)
deriving DecidableEq, Repr

/-- Attribute-file contents: `(directory, file-name) ↦ data`. -/
abbrev AttrMap := List ((Path × String) × String)

/-- Insert-or-replace an attribute binding. -/
def setA (k : Path × String) (v : String) (m : AttrMap) : AttrMap :=
  (k, v) :: m.filter (fun e => decide (e.1 ≠ k))

/-- Look up an attribute binding. -/
def lookupA (m : AttrMap) (k : Path × String) : Option String :=
  (m.find? (fun e => e.1 == k)).map Prod.snd

/-- The modelled state of configfs: the set of directories present, the
attribute files with their contents, and the write log (instrumentation). -/
structure FS where
  dirs : List Path
  attrs : AttrMap
  log : List Event
deriving DecidableEq, Repr

/-- Directory existence check (`Path::exists`). -/
def FS.dirExists (fs : FS) (p : Path) : Bool := fs.dirs.contains p

/-- The outcome of a fallible, state-threading operation: a value with the
new state, a returned error with the state at the failure point, or a fatal
abort (Rust `panic!` / failed `assert!` / `unwrap` of an error). -/
inductive Res (α : Type) where
  | ok (a : α) (fs : FS)
  | err (e : Error) (fs : FS)
  | fatal (msg : String) (fs : FS)
deriving DecidableEq, Repr

/-- Sequencing of fallible state-threading operations (the `?` operator). -/
def Res.bind {α β : Type} : Res α → (α → FS → Res β) → Res β
  | .ok a fs, f => f a fs
  | .err e fs, _ => .err e fs
  | .fatal m fs, _ => .fatal m fs

/-- The state carried by an outcome. -/
def Res.state {α : Type} : Res α → FS
  | .ok _ fs => fs
  | .err _ fs => fs
  | .fatal _ fs => fs

/-- Environment for the resource locator (`find_configfs`): the outside
world as the code observes it.  Existence checks of the well-known default
path are indexed by a logical clock ticked once per check, so every
interleaving of concurrent mount activity is covered.  `derivedExists` is the
state of the world at paths derived from the mount table; the intended
algorithm of the specification consults it, and the code (faithfully
modelled) never does — which is exactly the divergence exhibited for C1. -/
structure LocEnv where
  defaultExists : Nat → Bool
  modprobeInvoked : Option Bool
  modprobeStderr : String
  mountpoint : Nat → Option Path
  derivedExists : Path → Nat → Bool

/-- The well-known configfs location, `/sys/kernel/config/gpio-sim`. -/
def defaultConfigfsPath : Path :=
  [Comp.seg "sys", Comp.seg "kernel", Comp.seg "config", Comp.seg "gpio-sim"]

/-- The retry loop of src/lib.rs `find_configfs` (`for _ in 0..10`): fuel is
the remaining attempts, `t` the existence-check clock.  NOTE (faithful to the
source): inside the mount-table branch the code re-tests `path.exists()` —
the well-known default path — and not the derived `cfgfs` path it returns. -/
def find_loop (env : LocEnv) : Nat → Nat → Except Error Path
  | 0, _ => .error .ConfigfsNotFound
  | fuel + 1, t =>
    if env.defaultExists t then .ok defaultConfigfsPath
    else
      match env.mountpoint t with
      | some cfgfs =>
        if env.defaultExists (t + 1) then .ok (cfgfs ++ [Comp.seg "gpio-sim"])
        else find_loop env fuel (t + 2)
      | none => find_loop env fuel (t + 2)

/-- src/lib.rs `find_configfs`: fast path on the default location, else load
the gpio-sim module via modprobe and poll (10 attempts) for the path. -/
def find_configfs (env : LocEnv) : Except Error Path :=
  if env.defaultExists 0 then .ok defaultConfigfsPath
  else
    match env.modprobeInvoked with
    | none => .error (.CommandError "modprobe")
    | some false => .error (.ModuleLoadError env.modprobeStderr)
    | some true => find_loop env 10 1

/-- Environment of the configfs-facing operations: which creations and writes
the filesystem accepts, the kernel-provided values of read-only attributes
(`dev_name`, `chip_name`), whether `/dev/<chip_name>` is a symlink (`none`
models `fs::symlink_metadata` failing), and the name `default_name()` would
generate. -/
structure Env where
  loc : LocEnv
  createOk : Path → Bool
  writeOk : Path → String → Bool
  readVal : Path → String → Option String
  devIsSymlink : String → Option Bool
  genName : String

/-- `fs::create_dir`: fails if the directory exists or the environment
injects an I/O failure; on success the directory is recorded and logged. -/
def create_dir (env : Env) (p : Path) (fs : FS) : Res Unit :=
  if fs.dirExists p then .err .IoError fs
  else if env.createOk p then
    .ok () { fs with dirs := p :: fs.dirs, log := fs.log ++ [.mkdir p] }
  else .err .IoError fs

/-- src/lib.rs `write_attr`: writes `data` to `<dir>/<file>`.  In configfs the
attribute file exists exactly when its directory does. -/
def write_attr (env : Env) (dir : Path) (file : String) (data : String) (fs : FS) : Res Unit :=
  if fs.dirExists dir && env.writeOk dir file then
    .ok () { fs with attrs := setA (dir, file) data fs.attrs,
                     log := fs.log ++ [.wattr dir file data] }
  else .err .IoError fs

/-- src/lib.rs `read_attr` for kernel-owned attributes: the value (already
trimmed) comes from the kernel, i.e. from the environment. -/
def read_attr (env : Env) (dir : Path) (file : String) (fs : FS) : Res String :=
  match env.readVal dir file with
  | some v => .ok v fs
  | none => .err .IoError fs

/-- `fs::remove_dir`, best-effort (`let _ = …`): succeeds only when the
directory exists and has no subdirectories (configfs directories are removable
while still holding kernel-owned attribute files, which vanish with them);
any failure is ignored and leaves the state unchanged. -/
def remove_dir (p : Path) (fs : FS) : FS :=
  if fs.dirExists p && !(fs.dirs.any (fun q => strictUnder p q)) then
    { fs with dirs := ersP p fs.dirs,
              attrs := fs.attrs.filter (fun e => !(pfx p e.1.1)) }
  else fs

/-- A live simulated chip (src/lib.rs `Chip`). -/
structure Chip where
  dev_path : Path
  chip_name : String
  dev_name : String
  sysfs_path : Path
  cfg : Bank
deriving DecidableEq, Repr

/-- A live simulator (src/lib.rs `Sim`). -/
structure Sim where
  name : String
  chips : List Chip
  dir : Path
deriving DecidableEq, Repr

/-- Decimal digits of a number, most significant first (fuel-structural model
of Rust's `format!("{}")` / Lean's decimal rendering). -/
def natDecimalAux : Nat → Nat → List Char
  | 0, _ => []
  | fuel + 1, n =>
    if n < 10 then [Nat.digitChar n]
    else natDecimalAux fuel (n / 10) ++ [Nat.digitChar (n % 10)]

/-- Decimal rendering of a natural number. -/
def natDecimal (n : Nat) : String := String.mk (natDecimalAux (n + 1) n)

/-- src/lib.rs `Sim::setup_configfs`, inner loop over named lines: create
`line<offset>` and write its `name` attribute. -/
def setup_names (env : Env) (bank_dir : Path) : List (Nat × String) → FS → Res Unit
  | [], fs => .ok () fs
  | (o, nm) :: rest, fs =>
    (create_dir env (bank_dir ++ [Comp.line o]) fs).bind fun _ fs =>
    (write_attr env (bank_dir ++ [Comp.line o]) "name" nm fs).bind fun _ fs =>
    setup_names env bank_dir rest fs

/-- src/lib.rs `Sim::setup_configfs`, inner loop over hogged lines: create
`line<offset>` unless it already exists, then the nested `hog` directory with
its `name` (consumer) and `direction` attributes. -/
def setup_hogs (env : Env) (bank_dir : Path) : List (Nat × Hog) → FS → Res Unit
  | [], fs => .ok () fs
  | (o, h) :: rest, fs =>
    ((if fs.dirExists (bank_dir ++ [Comp.line o]) then .ok () fs
      else create_dir env (bank_dir ++ [Comp.line o]) fs) : Res Unit).bind fun _ fs =>
    (create_dir env (bank_dir ++ [Comp.line o, Comp.hogd]) fs).bind fun _ fs =>
    (write_attr env (bank_dir ++ [Comp.line o, Comp.hogd]) "name" h.consumer fs).bind fun _ fs =>
    (write_attr env (bank_dir ++ [Comp.line o, Comp.hogd]) "direction" h.direction.as_str fs).bind fun _ fs =>
    setup_hogs env bank_dir rest fs

/-- src/lib.rs `Sim::setup_configfs`, outer loop (`i` is the enumeration
index of the chip): create `bank<i>`, write `label` and `num_lines`, then the
named and hogged lines. -/
def setup_banks (env : Env) (dir : Path) : Nat → List Bank → FS → Res Unit
  | _, [], fs => .ok () fs
  | i, c :: rest, fs =>
    (create_dir env (dir ++ [Comp.bank i]) fs).bind fun _ fs =>
    (write_attr env (dir ++ [Comp.bank i]) "label" c.label fs).bind fun _ fs =>
    (write_attr env (dir ++ [Comp.bank i]) "num_lines" (natDecimal c.num_lines) fs).bind fun _ fs =>
    (setup_names env (dir ++ [Comp.bank i]) c.names fs).bind fun _ fs =>
    (setup_hogs env (dir ++ [Comp.bank i]) c.hogs fs).bind fun _ fs =>
    setup_banks env dir (i + 1) rest fs

/-- src/lib.rs `Sim::setup_configfs`. -/
def Sim.setup_configfs (env : Env) (sim : Sim) (fs : FS) : Res Unit :=
  setup_banks env sim.dir 0 (sim.chips.map Chip.cfg) fs

/-- src/lib.rs `Sim::cleanup_configfs`, hog loop: best-effort removal of the
`hog` subdirectory then the `line<offset>` directory. -/
def cleanup_hogs (bank_dir : Path) : List (Nat × Hog) → FS → FS
  | [], fs => fs
  | (o, _) :: rest, fs =>
    cleanup_hogs bank_dir rest
      (remove_dir (bank_dir ++ [Comp.line o])
        (remove_dir (bank_dir ++ [Comp.line o, Comp.hogd]) fs))

/-- src/lib.rs `Sim::cleanup_configfs`, name loop: best-effort removal of each
`line<offset>` directory. -/
def cleanup_names (bank_dir : Path) : List (Nat × String) → FS → FS
  | [], fs => fs
  | (o, _) :: rest, fs =>
    cleanup_names bank_dir rest (remove_dir (bank_dir ++ [Comp.line o]) fs)

/-- src/lib.rs `Sim::cleanup_configfs`, per-chip body: skip the bank if its
directory is gone, otherwise remove hog, line and bank directories. -/
def cleanup_bank (bank_dir : Path) (c : Bank) (fs : FS) : FS :=
  if fs.dirExists bank_dir then
    remove_dir bank_dir (cleanup_names bank_dir c.names (cleanup_hogs bank_dir c.hogs fs))
  else fs

/-- src/lib.rs `Sim::cleanup_configfs`, loop over the chips. -/
def cleanup_banks (dir : Path) : Nat → List Bank → FS → FS
  | _, [], fs => fs
  | i, c :: rest, fs => cleanup_banks dir (i + 1) rest (cleanup_bank (dir ++ [Comp.bank i]) c fs)

/-- src/lib.rs `Sim::cleanup_configfs`: if the top-level directory is gone,
do nothing; otherwise best-effort write `live = "0"`, remove every chip's
subtree, and finally the top-level directory.  The source ends with a busy
wait `while self.dir.exists() {}` for the kernel's asynchronous removal to
become visible; in this sequential model removal visibility is immediate, so
the wait has no observable effect and is not modelled. -/
def Sim.cleanup_configfs (env : Env) (sim : Sim) (fs : FS) : FS :=
  if fs.dirExists sim.dir then
    remove_dir sim.dir
      (cleanup_banks sim.dir 0 (sim.chips.map Chip.cfg)
        ((write_attr env sim.dir "live" "0" fs).state))
  else fs

/-- The diagnostic of the `assert!` in src/lib.rs `Sim::read_attrs`. -/
def symlinkMsg (dev_path : Path) (chip_name : String) : String :=
  "A symlink (" ++ String.intercalate "/" (dev_path.map (fun c =>
      match c with
      | .seg s => s
      | .bank i => "bank" ++ natDecimal i
      | .line o => "line" ++ natDecimal o
      | .hogd => "hog")) ++
    ") is masking device " ++ chip_name ++ ".  Please remove the symlink."

/-- The `/dev` node path derived for a chip in `Sim::read_attrs`. -/
def devPathOf (chip_name : String) : Path := [Comp.seg "dev", Comp.seg chip_name]

/-- The sysfs control path derived for a chip in `Sim::read_attrs`
(`/sys/devices/platform/<dev_name>/<chip_name>`). -/
def sysfsPathOf (dev_name chip_name : String) : Path :=
  [Comp.seg "sys", Comp.seg "devices", Comp.seg "platform", Comp.seg dev_name, Comp.seg chip_name]

/-- src/lib.rs `Sim::read_attrs`, loop body over the chips: read each bank's
kernel-assigned `chip_name`, then check that `/dev/<chip_name>` is not a
symlink — a symlink there could silently redirect control onto real hardware,
so the source `assert!`s (a fatal panic, not a returned error).  On success
the chip's device and sysfs paths are populated. -/
def read_chips (env : Env) (dir : Path) (dev_name : String) : Nat → List Chip → FS → Res (List Chip)
  | _, [], fs => .ok [] fs
  | i, c :: rest, fs =>
    (read_attr env (dir ++ [Comp.bank i]) "chip_name" fs).bind fun chip_name fs =>
    match env.devIsSymlink chip_name with
    | none => .err .IoError fs
    | some true => .fatal (symlinkMsg (devPathOf chip_name) chip_name) fs
    | some false =>
      (read_chips env dir dev_name (i + 1) rest fs).bind fun cs fs =>
      .ok ({ c with dev_path := devPathOf chip_name,
                    sysfs_path := sysfsPathOf dev_name chip_name,
                    chip_name := chip_name,
                    dev_name := dev_name } :: cs) fs

/-- src/lib.rs `Sim::read_attrs`. -/
def Sim.read_attrs (env : Env) (sim : Sim) (fs : FS) : Res Sim :=
  (read_attr env sim.dir "dev_name" fs).bind fun dev_name fs =>
  (read_chips env sim.dir dev_name 0 sim.chips fs).bind fun cs fs =>
  .ok { sim with chips := cs } fs

/-- src/lib.rs `Sim::live`: build the configfs subtree, write `live = "1"`,
then read back the kernel-assigned identifiers. -/
def Sim.live (env : Env) (sim : Sim) (fs : FS) : Res Sim :=
  (sim.setup_configfs env fs).bind fun _ fs =>
  (write_attr env sim.dir "live" "1" fs).bind fun _ fs =>
  sim.read_attrs env fs

/-- The name `Builder::live` resolves: the explicit name if set, otherwise
the generated `default_name()` (supplied by the environment). -/
def resolvedName (env : Env) (b : Builder) : String := b.name.getD env.genName

/-- src/lib.rs `Builder::live`: resolve the name and base directory, fail if
the simulator directory already exists, create it, construct the `Sim` and
take it live.  On an error after creation the local `Sim` is dropped, which
runs `cleanup_configfs` before the error propagates (a fatal panic terminates
the process instead). -/
def Builder.live (env : Env) (b : Builder) (fs : FS) : Res Sim :=
  let name := resolvedName env b
  match find_configfs env.loc with
  | .error e => .err e fs
  | .ok base =>
    let sim_dir := base ++ [Comp.seg name]
    if fs.dirExists sim_dir then .err (.SimulatorExists name) fs
    else
      match create_dir env sim_dir fs with
      | .err e fs => .err e fs
      | .fatal m fs => .fatal m fs
      | .ok _ fs =>
        let sim : Sim :=
          { name := name,
            chips := b.banks.map (fun bk =>
              { dev_path := [], chip_name := "", dev_name := "", sysfs_path := [], cfg := bk }),
            dir := sim_dir }
        match sim.live env fs with
        | .ok s fs => .ok s fs
        | .err e fs => .err e (sim.cleanup_configfs env fs)
        | .fatal m fs => .fatal m fs

/-- src/lib.rs `Simpleton` — a single-bank simulator. -/
structure Simpleton where
  sim : Sim
deriving DecidableEq, Repr

/-- src/lib.rs `Simpleton::new`: build a single-bank sim labelled
"simpleton" and take it live, `unwrap`ping the result — an error becomes a
process-terminating panic rather than a value returned to the caller. -/
def Simpleton.new (env : Env) (num_lines : Nat) (fs : FS) : Res Simpleton :=
  match (builderDefault.with_bank (Bank.new num_lines "simpleton")).live env fs with
  | .ok sim fs => .ok { sim := sim } fs
  | .err _ fs => .fatal "called `Result::unwrap()` on an `Err` value" fs
  | .fatal m fs => .fatal m fs

/-- src/lib.rs `unique_name`: `"<app>-p<pid>-<n>[-<instance>]"`.  The global
`NAME_COUNT : AtomicU32` counter is made explicit: the function takes the
current counter register value and returns the name built from it together
with the new register value.  The register is a 32-bit machine word, so the
read is reduced modulo `2^32` (a no-op on every reachable register value)
and `fetch_add(1, Ordering::Relaxed)` stores the increment wrapped modulo
`2^32`. -/
def unique_name (app : String) (pid : Nat) (inst : Option String) (count : Nat) :
    String × Nat :=
  let n := count % 4294967296
  let name := app ++ "-p" ++ natDecimal pid ++ "-" ++ natDecimal n
  (match inst with
   | some i => name ++ "-" ++ i
   | none => name, (n + 1) % 4294967296)

/-- The counter register before the `k`-th `unique_name` call of a process:
`NAME_COUNT` starts at 0 and each call stores the wrapped increment. -/
def nameCount : Nat → Nat
  | 0 => 0
  | k + 1 => (unique_name "" 0 none (nameCount k)).2

/-- Environment for the sysfs control interface: which attribute files accept
writes. -/
structure SysEnv where
  writeOk : Path → String → Bool

/-- The sysfs line directory `<sysfs_path>/sim_gpio<offset>` used by the
control operations. -/
def Chip.gpio_dir (c : Chip) (o : Nat) : Path :=
  c.sysfs_path ++ [Comp.seg ("sim_gpio" ++ natDecimal o)]

/-- src/lib.rs `Chip::set_pull`: write `"pull-up"`/`"pull-down"` to the
line's `pull` attribute. -/
def Chip.set_pull (env : SysEnv) (c : Chip) (o : Nat) (pull : Level) (s : AttrMap) :
    Except Error AttrMap :=
  let value := match pull with
    | Level.Low => "pull-down"
    | Level.High => "pull-up"
  if env.writeOk (c.gpio_dir o) "pull" then .ok (setA (c.gpio_dir o, "pull") value s)
  else .error .IoError

/-- src/lib.rs `Chip::get_attr`: read (and trim) a line attribute; a missing
or unreadable file is an I/O error. -/
def Chip.get_attr (c : Chip) (o : Nat) (attr : String) (s : AttrMap) : Except Error String :=
  match lookupA s (c.gpio_dir o, attr) with
  | some v => .ok v
  | none => .error .IoError

/-- src/lib.rs `Chip::get_pull`. -/
def Chip.get_pull (c : Chip) (o : Nat) (s : AttrMap) : Except Error Level :=
  match c.get_attr o "pull" s with
  | .error e => .error e
  | .ok pull =>
    if pull = "pull-down" then .ok Level.Low
    else if pull = "pull-up" then .ok Level.High
    else .error (.UnexpectedValue pull)

/-- src/lib.rs `Chip::get_level`. -/
def Chip.get_level (c : Chip) (o : Nat) (s : AttrMap) : Except Error Level :=
  match c.get_attr o "value" s with
  | .error e => .error e
  | .ok val =>
    if val = "0" then .ok Level.Low
    else if val = "1" then .ok Level.High
    else .error (.UnexpectedValue val)

/-- src/lib.rs `Chip::toggle`: read the current pull, invert it, write it
back, and return the new level. -/
def Chip.toggle (env : SysEnv) (c : Chip) (o : Nat) (s : AttrMap) :
    Except Error (Level × AttrMap) :=
  match c.get_pull o s with
  | .error e => .error e
  | .ok p =>
    let value := match p with
      | Level.High => Level.Low
      | Level.Low => Level.High
    match c.set_pull env o value s with
    | .error e => .error e
    | .ok s => .ok (value, s)

/-! ### The shape of a (possibly partially built) simulator tree -/

/-- The directories `setup_configfs` may create below a bank directory:
`line<o>` for named or hogged offsets and `line<o>/hog` for hogged ones. -/
def lineAllowed (bank_dir : Path) (c : Bank) (q : Path) : Bool :=
  c.names.any (fun na => q == bank_dir ++ [Comp.line na.1])
  || c.hogs.any (fun oh => q == bank_dir ++ [Comp.line oh.1]
       || q == bank_dir ++ [Comp.line oh.1, Comp.hogd])

/-- The directories activation may create for the banks of `cfgs`, the bank
at the head getting index `i`. -/
def simAllowedFrom (sim_dir : Path) : Nat → List Bank → Path → Bool
  | _, [], _ => false
  | i, c :: rest, q =>
    (q == sim_dir ++ [Comp.bank i] || lineAllowed (sim_dir ++ [Comp.bank i]) c q)
    || simAllowedFrom sim_dir (i + 1) rest q

/-- The directories an activation of `cfgs` under `sim_dir` may create. -/
def simAllowed (sim_dir : Path) (cfgs : List Bank) (q : Path) : Bool :=
  q == sim_dir || simAllowedFrom sim_dir 0 cfgs q

/-- A filesystem whose content below `sim_dir` is a possibly partially built
simulator tree for the configuration `cfgs`: every directory below `sim_dir`
is one activation may create, directories below `sim_dir` are not duplicated,
and a line/hog directory is only present when its bank directory is (and any
content below `sim_dir` only with `sim_dir` itself) — exactly the states
reachable by interrupting `Builder::live` after top-level creation. -/
def PartialTree (sim_dir : Path) (cfgs : List Bank) (fs : FS) : Prop :=
  (∀ q ∈ fs.dirs, pfx sim_dir q = true → simAllowed sim_dir cfgs q = true)
  ∧ (∀ q ∈ fs.dirs, pfx sim_dir q = true → cntP q fs.dirs ≤ 1)
  ∧ ((∃ q ∈ fs.dirs, strictUnder sim_dir q = true) → sim_dir ∈ fs.dirs)
  ∧ (∀ j, j < cfgs.length →
      (∃ q ∈ fs.dirs, strictUnder (sim_dir ++ [Comp.bank j]) q = true) →
      (sim_dir ++ [Comp.bank j]) ∈ fs.dirs)

instance PartialTree.instDecidable (sim_dir : Path) (cfgs : List Bank) (fs : FS) :
    Decidable (PartialTree sim_dir cfgs fs) := by
  unfold PartialTree
  exact inferInstance

/-! ### Concrete inputs used by witnesses and counterexample evaluations -/

/-- The empty filesystem state. -/
def emptyFS : FS := { dirs := [], attrs := [], log := [] }

/-- A locator environment where the default path exists immediately. -/
def okLocEnv : LocEnv :=
  { defaultExists := fun _ => true, modprobeInvoked := some true, modprobeStderr := "",
    mountpoint := fun _ => none, derivedExists := fun _ _ => false }

/-- The world exhibiting the C1 divergence: the well-known default path never
exists, modprobe succeeds, the mount table always reports a configfs mount at
`/mnt/cfg`, and the derived path `/mnt/cfg/gpio-sim` exists throughout. -/
def noCfgLocEnv : LocEnv :=
  { defaultExists := fun _ => false, modprobeInvoked := some true, modprobeStderr := "",
    mountpoint := fun _ => some [Comp.seg "mnt", Comp.seg "cfg"],
    derivedExists := fun _ _ => true }

/-- A chip not yet populated by read-back, as `Builder::live` constructs it. -/
def blankChip (bk : Bank) : Chip :=
  { dev_path := [], chip_name := "", dev_name := "", sysfs_path := [], cfg := bk }

/-- A live chip used by the control-interface witnesses. -/
def sampleChip : Chip :=
  { dev_path := [Comp.seg "dev", Comp.seg "gpiochip0"], chip_name := "gpiochip0",
    dev_name := "gpio-sim.0",
    sysfs_path := sysfsPathOf "gpio-sim.0" "gpiochip0", cfg := Bank.new 4 "b" }

/-- A sysfs environment accepting all writes. -/
def okSysEnv : SysEnv := { writeOk := fun _ _ => true }

/-- An environment in which every operation succeeds: all creations and
writes are accepted, the kernel hands out `gpio-sim.0` / `gpiochip0`, and no
device node is a symlink. -/
def okEnv : Env :=
  { loc := okLocEnv,
    createOk := fun _ => true,
    writeOk := fun _ _ => true,
    readVal := fun _ f =>
      if f = "dev_name" then some "gpio-sim.0"
      else if f = "chip_name" then some "gpiochip0" else none,
    devIsSymlink := fun _ => some false,
    genName := "g" }

/-- A two-chip simulator used by the read-back witnesses. -/
def c2Sim : Sim :=
  { name := "s", chips := [blankChip (Bank.new 4 "b"), blankChip (Bank.new 4 "b")],
    dir := [Comp.seg "d"] }

/-- An environment in which `/dev/gpiochip1` is a symlink while everything
else behaves: chip 0 reads back cleanly, chip 1 trips the safety check. -/
def c2Env : Env :=
  { loc := okLocEnv,
    createOk := fun _ => true,
    writeOk := fun _ _ => true,
    readVal := fun p f =>
      if f = "dev_name" then some "gpio-sim.0"
      else if p = [Comp.seg "d", Comp.bank 0] then some "gpiochip0"
      else if p = [Comp.seg "d", Comp.bank 1] then some "gpiochip1"
      else none,
    devIsSymlink := fun cn => some (cn == "gpiochip1"),
    genName := "g" }

/-- A one-bank simulator with a named and a hogged line, used by the
teardown witness. -/
def c5Sim : Sim :=
  { name := "t",
    chips := [blankChip
      { num_lines := 8, label := "left", names := [(3, "LED")],
        hogs := [(1, { consumer := "hogster", direction := Direction.Input })] }],
    dir := [Comp.seg "cfg", Comp.seg "t"] }

/-- A fully built configfs tree for `c5Sim`. -/
def c5FS : FS :=
  { dirs := [[Comp.seg "cfg", Comp.seg "t", Comp.bank 0, Comp.line 1, Comp.hogd],
             [Comp.seg "cfg", Comp.seg "t", Comp.bank 0, Comp.line 1],
             [Comp.seg "cfg", Comp.seg "t", Comp.bank 0, Comp.line 3],
             [Comp.seg "cfg", Comp.seg "t", Comp.bank 0],
             [Comp.seg "cfg", Comp.seg "t"]],
    attrs := [], log := [] }

/-- An environment in which configfs is found and every create and write
succeeds, but every attribute read fails (`fs::read_to_string` errors), so
activation fails at the read-back step, after the whole tree is built. -/
def failEnv : Env :=
  { okEnv with readVal := fun _ _ => none }

/-- A one-bank builder with an explicit name, used to exercise the
failed-activation cleanup path. -/
def c3B : Builder :=
  { name := some "t", banks := [Bank.new 4 "b"] }

/-- The directory that `c3B` resolves to under the default configfs base. -/
def c4Dir : Path := defaultConfigfsPath ++ [Comp.seg "t"]

/-- A filesystem already holding a directory at `c3B`'s resolved path. -/
def c4FS : FS := { dirs := [c4Dir], attrs := [], log := [] }

/-- The simulator returned by a successful activation of `c3B` under `okEnv`. -/
def c4FirstSim : Sim :=
  { name := "t",
    chips := [{ dev_path := [Comp.seg "dev", Comp.seg "gpiochip0"],
                chip_name := "gpiochip0", dev_name := "gpio-sim.0",
                sysfs_path := sysfsPathOf "gpio-sim.0" "gpiochip0",
                cfg := Bank.new 4 "b" }],
    dir := c4Dir }

/-- The filesystem state after a successful activation of `c3B` under
`okEnv` starting from the empty filesystem. -/
def c4SecondFS : FS :=
  { dirs := [c4Dir ++ [Comp.bank 0], c4Dir],
    attrs := [((c4Dir, "live"), "1"),
              ((c4Dir ++ [Comp.bank 0], "num_lines"), "4"),
              ((c4Dir ++ [Comp.bank 0], "label"), "b")],
    log := [Event.mkdir c4Dir, Event.mkdir (c4Dir ++ [Comp.bank 0]),
            Event.wattr (c4Dir ++ [Comp.bank 0]) "label" "b",
            Event.wattr (c4Dir ++ [Comp.bank 0]) "num_lines" "4",
            Event.wattr c4Dir "live" "1"] }

/-- The write trace the SPECIFICATION prescribes for the named lines of a
bank (spec 4.3 step 3): for every named offset, create the line directory and
write its `name` attribute.  This definition follows the spec text, to be
compared with the trace the embedded code produces. -/
def specNamesTrace (bank_dir : Path) : List (Nat × String) → List Event
  | [] => []
  | (o, nm) :: rest =>
    Event.mkdir (bank_dir ++ [Comp.line o]) ::
    Event.wattr (bank_dir ++ [Comp.line o]) "name" nm ::
    specNamesTrace bank_dir rest

/-- The write trace the SPECIFICATION prescribes for the hogged lines of a
bank (spec 4.3 step 3): create the line directory — or reuse it, when the
offset is also named — then the nested hog directory with the consumer name
and the direction string. -/
def specHogsTrace (bank_dir : Path) (names : List (Nat × String)) :
    List (Nat × Hog) → List Event
  | [] => []
  | (o, h) :: rest =>
    (if hasKey o names then [] else [Event.mkdir (bank_dir ++ [Comp.line o])]) ++
    (Event.mkdir (bank_dir ++ [Comp.line o, Comp.hogd]) ::
     Event.wattr (bank_dir ++ [Comp.line o, Comp.hogd]) "name" h.consumer ::
     Event.wattr (bank_dir ++ [Comp.line o, Comp.hogd]) "direction" h.direction.as_str ::
     specHogsTrace bank_dir names rest)

/-- The write trace the SPECIFICATION prescribes for one bank: create the
bank directory, write `label` and `num_lines`, then the named and the hogged
lines. -/
def specBankTrace (dir : Path) (i : Nat) (c : Bank) : List Event :=
  Event.mkdir (dir ++ [Comp.bank i]) ::
  Event.wattr (dir ++ [Comp.bank i]) "label" c.label ::
  Event.wattr (dir ++ [Comp.bank i]) "num_lines" (natDecimal c.num_lines) ::
  (specNamesTrace (dir ++ [Comp.bank i]) c.names ++
   specHogsTrace (dir ++ [Comp.bank i]) c.names c.hogs)

/-- The write trace the SPECIFICATION prescribes for the whole configfs
subtree, the head bank getting index `i`. -/
def specTraceFrom (dir : Path) : Nat → List Bank → List Event
  | _, [] => []
  | i, c :: rest => specBankTrace dir i c ++ specTraceFrom dir (i + 1) rest

/-- A bank whose hogged offsets overlap (offset 3) and do not overlap
(offset 1) its named offsets, exercising both the create and the reuse path
of the hog loop. -/
def c6Bank : Bank :=
  { num_lines := 8, label := "left", names := [(3, "LED")],
    hogs := [(3, { consumer := "wd", direction := Direction.OutputHigh }),
             (1, { consumer := "backlight", direction := Direction.Input })] }

/-- A not-yet-activated simulator for `c6Bank`. -/
def c6Sim : Sim :=
  { name := "t", chips := [blankChip c6Bank], dir := [Comp.seg "cfg", Comp.seg "t"] }

/-- A filesystem holding only the simulator's top-level directory. -/
def c6FS : FS := { dirs := [[Comp.seg "cfg", Comp.seg "t"]], attrs := [], log := [] }

/-- The simulator `c6Sim` becomes after a successful activation under
`okEnv`. -/
def c6ResultSim : Sim :=
  { name := "t",
    chips := [{ dev_path := [Comp.seg "dev", Comp.seg "gpiochip0"],
                chip_name := "gpiochip0", dev_name := "gpio-sim.0",
                sysfs_path := sysfsPathOf "gpio-sim.0" "gpiochip0",
                cfg := c6Bank }],
    dir := [Comp.seg "cfg", Comp.seg "t"] }

/-- The state after a successful directory creation. -/
def FS.addDir (fs : FS) (p : Path) : FS :=
  { fs with dirs := p :: fs.dirs, log := fs.log ++ [Event.mkdir p] }

/-- The state after a successful attribute write. -/
def FS.putAttr (fs : FS) (dir : Path) (file data : String) : FS :=
  { fs with attrs := setA (dir, file) data fs.attrs,
            log := fs.log ++ [Event.wattr dir file data] }

/-! ### Basic lemmas about the model's building blocks -/

theorem Res.bind_ok {α β : Type} (a : α) (fs : FS) (f : α → FS → Res β) :
    (Res.ok a fs).bind f = f a fs := rfl

theorem Res.bind_err {α β : Type} (e : Error) (fs : FS) (f : α → FS → Res β) :
    (Res.err e fs).bind f = .err e fs := rfl

theorem Res.bind_fatal {α β : Type} (m : String) (fs : FS) (f : α → FS → Res β) :
    (Res.fatal m fs).bind f = .fatal m fs := rfl

theorem digitChar_toNat {d : Nat} (h : d < 10) : (Nat.digitChar d).toNat = 48 + d := by
  interval_cases d <;> rfl

/-- Decimal decoding, the inverse used to prove `natDecimal` injective. -/
def decDigits (a : Nat) (l : List Char) : Nat :=
  l.foldl (fun acc c => acc * 10 + (c.toNat - 48)) a

theorem decDigits_append (a : Nat) (l₁ l₂ : List Char) :
    decDigits a (l₁ ++ l₂) = decDigits (decDigits a l₁) l₂ := by
  simp [decDigits, List.foldl_append]

theorem decDigits_natDecimalAux :
    ∀ (fuel n a : Nat), n < fuel →
      decDigits a (natDecimalAux fuel n) = a * 10 ^ (natDecimalAux fuel n).length + n := by
  intro fuel
  induction fuel with
  | zero => intro n a h; omega
  | succ f ih =>
    intro n a h
    by_cases h10 : n < 10
    · simp only [natDecimalAux, if_pos h10, decDigits, List.foldl_cons, List.foldl_nil,
        List.length_singleton, pow_one, digitChar_toNat h10]
      omega
    · have hn : 0 < n := by omega
      have hdiv : n / 10 < f := by
        have h1 : n / 10 < n := Nat.div_lt_self hn (by omega)
        omega
      simp only [natDecimalAux, if_neg h10, decDigits_append, List.length_append,
        List.length_singleton]
      rw [ih (n / 10) a hdiv]
      have hlt : n % 10 < 10 := Nat.mod_lt _ (by omega)
      simp only [decDigits, List.foldl_cons, List.foldl_nil, digitChar_toNat hlt]
      have hmod : 48 + n % 10 - 48 = n % 10 := by omega
      rw [hmod, pow_succ]
      have hdm : 10 * (n / 10) + n % 10 = n := by omega
      ring_nf
      omega

theorem natDecimal_inj : ∀ {m n : Nat}, natDecimal m = natDecimal n → m = n := by
  intro m n h
  have hdata : natDecimalAux (m + 1) m = natDecimalAux (n + 1) n := congrArg String.data h
  have h1 := decDigits_natDecimalAux (m + 1) m 0 (by omega)
  have h2 := decDigits_natDecimalAux (n + 1) n 0 (by omega)
  rw [hdata] at h1
  omega

theorem lookupA_setA (k : Path × String) (v : String) (m : AttrMap) :
    lookupA (setA k v m) k = some v := by
  simp [lookupA, setA]

/-! ### Lemmas about attribute read-back (`read_chips`, `read_attrs`) -/

theorem read_chips_state (env : Env) (dir : Path) (dn : String) :
    ∀ (chips : List Chip) (i : Nat) (fs : FS), (read_chips env dir dn i chips fs).state = fs := by
  intro chips
  induction chips with
  | nil => intro i fs; rfl
  | cons c rest ih =>
    intro i fs
    simp only [read_chips, read_attr]
    cases env.readVal (dir ++ [Comp.bank i]) "chip_name" with
    | none => rfl
    | some cn =>
      simp only [Res.bind_ok]
      cases hsym : env.devIsSymlink cn with
      | none => rfl
      | some b =>
        cases b with
        | true => rfl
        | false =>
          simp only []
          cases hrec : read_chips env dir dn (i + 1) rest fs with
          | ok cs fs' =>
            have := ih (i + 1) fs
            rw [hrec] at this
            simp only [Res.bind_ok, Res.state] at this ⊢
            exact this
          | err e fs' =>
            have := ih (i + 1) fs
            rw [hrec] at this
            simpa [Res.bind, Res.state] using this
          | fatal m fs' =>
            have := ih (i + 1) fs
            rw [hrec] at this
            simpa [Res.bind, Res.state] using this

theorem read_chips_ok_shape (env : Env) (dir : Path) (dn : String) :
    ∀ (chips : List Chip) (i : Nat) (fs : FS) (cs : List Chip) (fs' : FS),
      read_chips env dir dn i chips fs = .ok cs fs' →
      fs' = fs ∧ cs.length = chips.length := by
  intro chips
  induction chips with
  | nil =>
    intro i fs cs fs' h
    simp only [read_chips] at h
    cases h
    exact ⟨rfl, rfl⟩
  | cons c rest ih =>
    intro i fs cs fs' h
    simp only [read_chips, read_attr] at h
    cases hrd : env.readVal (dir ++ [Comp.bank i]) "chip_name" with
    | none => rw [hrd] at h; exact absurd h (by simp [Res.bind])
    | some cn =>
      rw [hrd] at h
      simp only [Res.bind_ok] at h
      cases hsym : env.devIsSymlink cn with
      | none => rw [hsym] at h; exact absurd h (by simp)
      | some b =>
        cases b with
        | true => rw [hsym] at h; exact absurd h (by simp)
        | false =>
          rw [hsym] at h
          simp only [] at h
          cases hrec : read_chips env dir dn (i + 1) rest fs with
          | ok cs₀ fs₀ =>
            rw [hrec] at h
            simp only [Res.bind_ok] at h
            injection h with h1 h2
            have h3 := ih (i + 1) fs cs₀ fs₀ hrec
            constructor
            · rw [← h2]; exact h3.1
            · rw [← h1]; simp [h3.2]
          | err e fs₀ => rw [hrec] at h; exact absurd h (by simp [Res.bind])
          | fatal m fs₀ => rw [hrec] at h; exact absurd h (by simp [Res.bind])

theorem read_chips_all_ok (env : Env) (dir : Path) (dn : String) :
    ∀ (chips : List Chip) (i : Nat) (fs : FS),
      (∀ j, j < chips.length →
        ∃ cnj, env.readVal (dir ++ [Comp.bank (i + j)]) "chip_name" = some cnj ∧
          env.devIsSymlink cnj = some false) →
      ∃ cs, read_chips env dir dn i chips fs = .ok cs fs ∧ cs.length = chips.length := by
  intro chips
  induction chips with
  | nil => intro i fs _; exact ⟨[], rfl, rfl⟩
  | cons c rest ih =>
    intro i fs hall
    obtain ⟨cn, hcn, hsym⟩ := hall 0 (by simp)
    rw [Nat.add_zero] at hcn
    obtain ⟨cs, hcs, hlen⟩ := ih (i + 1) fs (fun j hj => by
      have harith : i + 1 + j = i + (j + 1) := by omega
      rw [harith]
      exact hall (j + 1) (by simp only [List.length_cons]; omega))
    refine ⟨Chip.mk (devPathOf cn) cn dn (sysfsPathOf dn cn) c.cfg :: cs, ?_, by simp [hlen]⟩
    simp only [read_chips, read_attr, hcn, Res.bind_ok, hsym, hcs]

theorem read_chips_hits_symlink (env : Env) (dir : Path) (dn : String) :
    ∀ (pre : List Chip) (c : Chip) (post : List Chip) (i : Nat) (fs : FS) (cn : String),
      (∀ j, j < pre.length →
        ∃ cnj, env.readVal (dir ++ [Comp.bank (i + j)]) "chip_name" = some cnj ∧
          env.devIsSymlink cnj = some false) →
      env.readVal (dir ++ [Comp.bank (i + pre.length)]) "chip_name" = some cn →
      env.devIsSymlink cn = some true →
      read_chips env dir dn i (pre ++ c :: post) fs =
        .fatal (symlinkMsg (devPathOf cn) cn) fs := by
  intro pre
  induction pre with
  | nil =>
    intro c post i fs cn _ hcn hsym
    simp only [List.length_nil, Nat.add_zero] at hcn
    simp only [List.nil_append, read_chips, read_attr, hcn, Res.bind_ok, hsym]
  | cons p rest ih =>
    intro c post i fs cn hpre hcn hsym
    obtain ⟨cn0, hcn0, hsym0⟩ := hpre 0 (by simp)
    rw [Nat.add_zero] at hcn0
    have hrec := ih c post (i + 1) fs cn (fun j hj => by
      have harith : i + 1 + j = i + (j + 1) := by omega
      rw [harith]
      exact hpre (j + 1) (by simp only [List.length_cons]; omega)) (by
        have harith : i + 1 + rest.length = i + (p :: rest).length := by
          simp only [List.length_cons]; omega
        rw [harith]; exact hcn) hsym
    simp only [List.cons_append, read_chips, read_attr, hcn0, Res.bind_ok, hsym0]
    rw [show rest.append (c :: post) = rest ++ c :: post from rfl, hrec, Res.bind_fatal]

theorem read_attrs_all_ok (env : Env) (sim : Sim) (fs : FS) (dn : String)
    (hdn : env.readVal sim.dir "dev_name" = some dn)
    (hall : ∀ j, j < sim.chips.length →
      ∃ cnj, env.readVal (sim.dir ++ [Comp.bank j]) "chip_name" = some cnj ∧
        env.devIsSymlink cnj = some false) :
    ∃ s', sim.read_attrs env fs = .ok s' fs ∧ s'.name = sim.name ∧ s'.dir = sim.dir ∧
      s'.chips.length = sim.chips.length := by
  obtain ⟨cs, hcs, hlen⟩ := read_chips_all_ok env sim.dir dn sim.chips 0 fs (fun j hj => by
    rw [Nat.zero_add]; exact hall j hj)
  refine ⟨{ sim with chips := cs }, ?_, rfl, rfl, hlen⟩
  simp only [Sim.read_attrs, read_attr, hdn, Res.bind_ok, hcs]

theorem natDecimalAux_inj {m n : Nat}
    (h : natDecimalAux (m + 1) m = natDecimalAux (n + 1) n) : m = n := by
  have h1 := decDigits_natDecimalAux (m + 1) m 0 (by omega)
  have h2 := decDigits_natDecimalAux (n + 1) n 0 (by omega)
  rw [h] at h1
  omega

/-! ### Claim theorems: naming, control interface, Simpleton, locator -/

theorem nameCount_mod : ∀ k, nameCount k = k % 4294967296 := by
  intro k
  induction k with
  | zero => rfl
  | succ k ih =>
    show ((nameCount k % 4294967296) + 1) % 4294967296 = (k + 1) % 4294967296
    rw [ih]
    omega

/-- C9 (corrected): every call returns exactly `"<app>-p<pid>-<n>"` with the
instance suffix appended when present, where `n` is the current value of the
single process-global 32-bit counter; the counter starts at 0 and
`fetch_add` stores it back incremented MODULO `2^32`, so the register before
the `k`-th call of a process is `k % 2^32` — not strictly increasing across
all calls — and two calls with the same instance argument return distinct
names whenever their positions are fewer than `2^32` apart.  The claimed
unconditional distinctness fails at the wrap: see the counterexample. -/
theorem C9_unique_name :
    (∀ app pid c, c < 4294967296 → unique_name app pid none c =
      (app ++ "-p" ++ natDecimal pid ++ "-" ++ natDecimal c, (c + 1) % 4294967296))
    ∧ (∀ app pid inst c, c < 4294967296 → unique_name app pid (some inst) c =
      (app ++ "-p" ++ natDecimal pid ++ "-" ++ natDecimal c ++ "-" ++ inst,
        (c + 1) % 4294967296))
    ∧ (∀ k, nameCount k = k % 4294967296)
    ∧ (∀ app pid inst k l, k < l → l - k < 4294967296 →
      (unique_name app pid inst (nameCount k)).1 ≠
        (unique_name app pid inst (nameCount l)).1) := by
  refine ⟨?_, ?_, nameCount_mod, ?_⟩
  · intro app pid c hc
    show (app ++ "-p" ++ natDecimal pid ++ "-" ++ natDecimal (c % 4294967296),
      ((c % 4294967296) + 1) % 4294967296) = _
    rw [Nat.mod_eq_of_lt hc]
  · intro app pid inst c hc
    show (app ++ "-p" ++ natDecimal pid ++ "-" ++ natDecimal (c % 4294967296)
        ++ "-" ++ inst,
      ((c % 4294967296) + 1) % 4294967296) = _
    rw [Nat.mod_eq_of_lt hc]
  · intro app pid inst k l hkl hlt heq
    have hmod : k % 4294967296 ≠ l % 4294967296 := by omega
    apply hmod
    rw [nameCount_mod, nameCount_mod] at heq
    cases inst with
    | none =>
      simp only [unique_name] at heq
      have hd := congrArg String.data heq
      simp only [String.data_append, List.append_assoc] at hd
      have h1 := List.append_cancel_left hd
      have h2 := List.append_cancel_left h1
      have h3 := List.append_cancel_left h2
      have h4 := List.append_cancel_left h3
      have h5 : k % 4294967296 % 4294967296 = l % 4294967296 % 4294967296 :=
        natDecimalAux_inj h4
      omega
    | some i =>
      simp only [unique_name] at heq
      have hd := congrArg String.data heq
      simp only [String.data_append, List.append_assoc] at hd
      have h1 := List.append_cancel_left hd
      have h2 := List.append_cancel_left h1
      have h3 := List.append_cancel_left h2
      have h4 := List.append_cancel_left h3
      have h5 := List.append_cancel_right h4
      have h6 : k % 4294967296 % 4294967296 = l % 4294967296 % 4294967296 :=
        natDecimalAux_inj h5
      omega

theorem C9_witness :
    unique_name "app" 7 none 0 =
      ("app" ++ "-p" ++ natDecimal 7 ++ "-" ++ natDecimal 0, (0 + 1) % 4294967296)
    ∧ (unique_name "app" 7 none (nameCount 0)).1 ≠
        (unique_name "app" 7 none (nameCount 1)).1 :=
  ⟨C9_unique_name.1 "app" 7 0 (by decide),
   C9_unique_name.2.2.2 "app" 7 none 0 1 (by decide) (by decide)⟩

/-- C9 counterexample: the 32-bit counter wraps, so the call at position
`2^32` of a process sees the register back at 0 and returns exactly the name
the call at position 0 returned — two distinct in-process calls with the
same arguments whose names coincide. -/
theorem C9_counterexample :
    (0 : Nat) ≠ 4294967296 ∧
    (unique_name "app" 7 none (nameCount 0)).1 =
      (unique_name "app" 7 none (nameCount 4294967296)).1 := by
  constructor
  · decide
  · have h2 : nameCount 4294967296 = 0 := by rw [nameCount_mod]
    rw [h2]
    rfl

/-- C8: reading a line's pull maps `"pull-down"` to Low and `"pull-up"` to
High and any other attribute value to the unexpected-value error carrying the
offending string; reading a line's driven level maps `"0"` to Low, `"1"` to
High, and anything else to the unexpected-value error — neither read returns
a level for an out-of-domain value. -/
theorem C8_attr_value_domains :
    ∀ (c : Chip) (o : Nat) (s : AttrMap) (v w : String),
      (lookupA s (c.gpio_dir o, "pull") = some v →
        ((v = "pull-down" → c.get_pull o s = .ok Level.Low)
         ∧ (v = "pull-up" → c.get_pull o s = .ok Level.High)
         ∧ (v ≠ "pull-down" → v ≠ "pull-up" →
             c.get_pull o s = .error (.UnexpectedValue v))))
      ∧ (lookupA s (c.gpio_dir o, "value") = some w →
        ((w = "0" → c.get_level o s = .ok Level.Low)
         ∧ (w = "1" → c.get_level o s = .ok Level.High)
         ∧ (w ≠ "0" → w ≠ "1" → c.get_level o s = .error (.UnexpectedValue w)))) := by
  intro c o s v w
  constructor
  · intro h
    refine ⟨fun hv => ?_, fun hv => ?_, fun h1 h2 => ?_⟩
    · subst hv; simp [Chip.get_pull, Chip.get_attr, h]
    · subst hv; simp [Chip.get_pull, Chip.get_attr, h]
    · simp [Chip.get_pull, Chip.get_attr, h, h1, h2]
  · intro h
    refine ⟨fun hv => ?_, fun hv => ?_, fun h1 h2 => ?_⟩
    · subst hv; simp [Chip.get_level, Chip.get_attr, h]
    · subst hv; simp [Chip.get_level, Chip.get_attr, h]
    · simp [Chip.get_level, Chip.get_attr, h, h1, h2]

theorem C8_witness :
    sampleChip.get_pull 0 [((sampleChip.gpio_dir 0, "pull"), "floating")] =
      .error (.UnexpectedValue "floating")
    ∧ sampleChip.get_level 0 [((sampleChip.gpio_dir 0, "value"), "Z")] =
      .error (.UnexpectedValue "Z") :=
  ⟨((C8_attr_value_domains sampleChip 0 [((sampleChip.gpio_dir 0, "pull"), "floating")]
      "floating" "w").1 rfl).2.2 (by decide) (by decide),
   ((C8_attr_value_domains sampleChip 0 [((sampleChip.gpio_dir 0, "value"), "Z")]
      "v" "Z").2 rfl).2.2 (by decide) (by decide)⟩

/-- C7: on a live chip, setting the pull High then reading it back returns
High, setting Low returns Low, toggling twice returns the line to the pull it
started from, and `Level.toggle` is total and self-inverting. -/
theorem C7_pull_round_trip :
    ∀ (env : SysEnv) (c : Chip) (o : Nat) (s : AttrMap),
      env.writeOk (c.gpio_dir o) "pull" = true →
      ((∃ s', c.set_pull env o Level.High s = .ok s' ∧ c.get_pull o s' = .ok Level.High)
       ∧ (∃ s', c.set_pull env o Level.Low s = .ok s' ∧ c.get_pull o s' = .ok Level.Low)
       ∧ (∀ l, c.get_pull o s = .ok l →
           ∃ s₁ s₂, c.toggle env o s = .ok (l.toggle, s₁)
             ∧ c.toggle env o s₁ = .ok (l, s₂)
             ∧ c.get_pull o s₂ = .ok l)
       ∧ (∀ l : Level, l.toggle.toggle = l)) := by
  intro env c o s hw
  refine ⟨⟨setA (c.gpio_dir o, "pull") "pull-up" s, ?_, ?_⟩,
          ⟨setA (c.gpio_dir o, "pull") "pull-down" s, ?_, ?_⟩, ?_, ?_⟩
  · simp [Chip.set_pull, hw]
  · simp [Chip.get_pull, Chip.get_attr, lookupA_setA]
  · simp [Chip.set_pull, hw]
  · simp [Chip.get_pull, Chip.get_attr, lookupA_setA]
  · intro l hl
    cases l with
    | High =>
      refine ⟨setA (c.gpio_dir o, "pull") "pull-down" s,
              setA (c.gpio_dir o, "pull") "pull-up"
                (setA (c.gpio_dir o, "pull") "pull-down" s), ?_, ?_, ?_⟩
      · simp [Chip.toggle, hl, Chip.set_pull, hw, Level.toggle]
      · simp [Chip.toggle, Chip.get_pull, Chip.get_attr, lookupA_setA, Chip.set_pull, hw]
      · simp [Chip.get_pull, Chip.get_attr, lookupA_setA]
    | Low =>
      refine ⟨setA (c.gpio_dir o, "pull") "pull-up" s,
              setA (c.gpio_dir o, "pull") "pull-down"
                (setA (c.gpio_dir o, "pull") "pull-up" s), ?_, ?_, ?_⟩
      · simp [Chip.toggle, hl, Chip.set_pull, hw, Level.toggle]
      · simp [Chip.toggle, Chip.get_pull, Chip.get_attr, lookupA_setA, Chip.set_pull, hw]
      · simp [Chip.get_pull, Chip.get_attr, lookupA_setA]
  · intro l; cases l <;> rfl

theorem C7_witness :
    okSysEnv.writeOk (sampleChip.gpio_dir 0) "pull" = true
    ∧ (∃ s', sampleChip.set_pull okSysEnv 0 Level.High [] = .ok s'
        ∧ sampleChip.get_pull 0 s' = .ok Level.High)
    ∧ (∃ s₁ s₂,
        sampleChip.toggle okSysEnv 0 [((sampleChip.gpio_dir 0, "pull"), "pull-up")] =
          .ok (Level.High.toggle, s₁)
        ∧ sampleChip.toggle okSysEnv 0 s₁ = .ok (Level.High, s₂)
        ∧ sampleChip.get_pull 0 s₂ = .ok Level.High) := by
  have h := C7_pull_round_trip okSysEnv sampleChip 0
    [((sampleChip.gpio_dir 0, "pull"), "pull-up")] rfl
  have h0 := C7_pull_round_trip okSysEnv sampleChip 0 [] rfl
  exact ⟨rfl, h0.1, h.2.2.1 Level.High rfl⟩

/-- C1 (code bug): in the world `noCfgLocEnv` — default path never present,
modprobe succeeding, the mount table reporting a configfs mount on every one
of the 10 attempts, and the derived path `<mountpoint>/gpio-sim` existing
throughout — the claim requires `find_configfs` to return the derived path,
but the code never consults it (it re-checks the default path instead, a slip
visible at src/lib.rs:701) and exhausts its retry budget, failing with
`ConfigfsNotFound`. -/
theorem C1_find_configfs_ignores_derived :
    find_configfs noCfgLocEnv = .error .ConfigfsNotFound
    ∧ (∀ t, noCfgLocEnv.mountpoint t = some [Comp.seg "mnt", Comp.seg "cfg"])
    ∧ (∀ t, noCfgLocEnv.derivedExists
        ([Comp.seg "mnt", Comp.seg "cfg"] ++ [Comp.seg "gpio-sim"]) t = true) :=
  ⟨rfl, fun _ => rfl, fun _ => rfl⟩

/-- C2: during activation read-back, if some chip's derived device-node path
`/dev/<chip_name>` is a symbolic link (all chips before it reading back
cleanly), `read_attrs` aborts fatally with a diagnostic naming the symlink
path and the masked device, rather than returning a typed `Error`; when no
chip's path is a symlink, read-back returns normally. -/
theorem C2_symlink_fatal_abort :
    ∀ (env : Env) (sim : Sim) (fs : FS) (dn : String),
      env.readVal sim.dir "dev_name" = some dn →
      ((∀ (pre : List Chip) (c : Chip) (post : List Chip) (cn : String),
          sim.chips = pre ++ c :: post →
          (∀ j, j < pre.length →
            ∃ cnj, env.readVal (sim.dir ++ [Comp.bank j]) "chip_name" = some cnj ∧
              env.devIsSymlink cnj = some false) →
          env.readVal (sim.dir ++ [Comp.bank pre.length]) "chip_name" = some cn →
          env.devIsSymlink cn = some true →
          sim.read_attrs env fs = .fatal (symlinkMsg (devPathOf cn) cn) fs)
       ∧ ((∀ j, j < sim.chips.length →
            ∃ cnj, env.readVal (sim.dir ++ [Comp.bank j]) "chip_name" = some cnj ∧
              env.devIsSymlink cnj = some false) →
          ∃ s', sim.read_attrs env fs = .ok s' fs ∧ s'.name = sim.name ∧
            s'.dir = sim.dir ∧ s'.chips.length = sim.chips.length)) := by
  intro env sim fs dn hdn
  constructor
  · intro pre c post cn hchips hpre hcn hsym
    have h := read_chips_hits_symlink env sim.dir dn pre c post 0 fs cn
      (fun j hj => by rw [Nat.zero_add]; exact hpre j hj)
      (by rw [Nat.zero_add]; exact hcn) hsym
    simp only [Sim.read_attrs, read_attr, hdn, Res.bind_ok, hchips, h, Res.bind_fatal]
  · exact read_attrs_all_ok env sim fs dn hdn

theorem C2_witness :
    c2Sim.read_attrs c2Env emptyFS =
      .fatal (symlinkMsg (devPathOf "gpiochip1") "gpiochip1") emptyFS :=
  (C2_symlink_fatal_abort c2Env c2Sim emptyFS "gpio-sim.0" rfl).1
    [blankChip (Bank.new 4 "b")] (blankChip (Bank.new 4 "b")) [] "gpiochip1" rfl
    (fun j hj => by
      simp only [List.length_singleton] at hj
      interval_cases j
      exact ⟨"gpiochip0", rfl, rfl⟩) rfl rfl

theorem Sim_live_ok_shape (env : Env) (sim : Sim) (fs : FS) (s : Sim) (fs' : FS)
    (h : sim.live env fs = .ok s fs') :
    s.name = sim.name ∧ s.dir = sim.dir ∧ s.chips.length = sim.chips.length := by
  simp only [Sim.live] at h
  cases hsetup : sim.setup_configfs env fs with
  | err e fs₀ => rw [hsetup] at h; exact absurd h (by simp [Res.bind])
  | fatal m fs₀ => rw [hsetup] at h; exact absurd h (by simp [Res.bind])
  | ok u fs₀ =>
    rw [hsetup] at h
    simp only [Res.bind_ok] at h
    cases hw : write_attr env sim.dir "live" "1" fs₀ with
    | err e fs₁ => rw [hw] at h; exact absurd h (by simp [Res.bind])
    | fatal m fs₁ => rw [hw] at h; exact absurd h (by simp [Res.bind])
    | ok u' fs₁ =>
      rw [hw] at h
      simp only [Res.bind_ok, Sim.read_attrs, read_attr] at h
      cases hdn : env.readVal sim.dir "dev_name" with
      | none => rw [hdn] at h; exact absurd h (by simp [Res.bind])
      | some dn =>
        rw [hdn] at h
        simp only [Res.bind_ok] at h
        cases hrc : read_chips env sim.dir dn 0 sim.chips fs₁ with
        | err e fs₂ => rw [hrc] at h; exact absurd h (by simp [Res.bind])
        | fatal m fs₂ => rw [hrc] at h; exact absurd h (by simp [Res.bind])
        | ok cs fs₂ =>
          rw [hrc] at h
          simp only [Res.bind_ok] at h
          injection h with h1 h2
          have hlen := (read_chips_ok_shape env sim.dir dn sim.chips 0 fs₁ cs fs₂ hrc).2
          rw [← h1]
          exact ⟨rfl, rfl, hlen⟩

theorem Builder_live_ok_len (env : Env) (b : Builder) (fs : FS) (s : Sim) (fs' : FS)
    (h : b.live env fs = .ok s fs') :
    s.name = resolvedName env b ∧ s.chips.length = b.banks.length := by
  simp only [Builder.live] at h
  cases hfind : find_configfs env.loc with
  | error e => rw [hfind] at h; exact absurd h (by simp)
  | ok base =>
    rw [hfind] at h
    simp only [] at h
    by_cases hex : fs.dirExists (base ++ [Comp.seg (resolvedName env b)]) = true
    · rw [if_pos hex] at h; exact absurd h (by simp)
    · rw [if_neg hex] at h
      cases hcr : create_dir env (base ++ [Comp.seg (resolvedName env b)]) fs with
      | err e fs₀ => rw [hcr] at h; exact absurd h (by simp)
      | fatal m fs₀ => rw [hcr] at h; exact absurd h (by simp)
      | ok u fs₀ =>
        rw [hcr] at h
        simp only [] at h
        cases hlive : Sim.live env
          { name := resolvedName env b,
            chips := b.banks.map (fun bk =>
              { dev_path := [], chip_name := "", dev_name := "", sysfs_path := [], cfg := bk }),
            dir := base ++ [Comp.seg (resolvedName env b)] } fs₀ with
        | err e fs₁ => rw [hlive] at h; exact absurd h (by simp)
        | fatal m fs₁ => rw [hlive] at h; exact absurd h (by simp)
        | ok s₀ fs₁ =>
          rw [hlive] at h
          injection h with h1 h2
          have hs := Sim_live_ok_shape env _ fs₀ s₀ fs₁ hlive
          rw [← h1]
          refine ⟨hs.1, ?_⟩
          rw [hs.2.2]
          simp

/-- C10: `Simpleton.new` has no error path at its public interface: for every
environment, line count and filesystem state it either returns a live
simulator with exactly one chip or aborts fatally (the `unwrap` panic); it
never returns an `err` value to the caller. -/
theorem C10_simpleton_new_no_error :
    ∀ (env : Env) (n : Nat) (fs : FS),
      (∀ e fs', Simpleton.new env n fs ≠ .err e fs')
      ∧ (∀ s fs', Simpleton.new env n fs = .ok s fs' → s.sim.chips.length = 1) := by
  intro env n fs
  constructor
  · intro e fs' h
    simp only [Simpleton.new] at h
    revert h
    cases hB : (builderDefault.with_bank (Bank.new n "simpleton")).live env fs <;> simp
  · intro s fs' h
    simp only [Simpleton.new] at h
    cases hB : (builderDefault.with_bank (Bank.new n "simpleton")).live env fs with
    | err e fs₀ => rw [hB] at h; exact absurd h (by simp)
    | fatal m fs₀ => rw [hB] at h; exact absurd h (by simp)
    | ok sim fs₀ =>
      rw [hB] at h
      injection h with h1 h2
      have := (Builder_live_ok_len env _ fs sim fs₀ hB).2
      rw [← h1]
      simpa [builderDefault, Builder.with_bank] using this

theorem C10_witness :
    ∃ s fs', Simpleton.new okEnv 4 emptyFS = .ok s fs' ∧ s.sim.chips.length = 1 := by
  refine ⟨_, _, rfl, ?_⟩
  exact (C10_simpleton_new_no_error okEnv 4 emptyFS).2 _ _ rfl

/-! ### Path-prefix, erase and count lemmas -/

theorem pfx_refl : ∀ p : Path, pfx p p = true := by
  intro p
  induction p with
  | nil => rfl
  | cons a as ih => simp [pfx, ih]

theorem pfx_append (p s : Path) : pfx p (p ++ s) = true := by
  induction p with
  | nil => rfl
  | cons a as ih => simp [pfx, ih]

theorem pfx_iff_exists {p q : Path} : pfx p q = true ↔ ∃ s, q = p ++ s := by
  constructor
  · intro h
    induction p generalizing q with
    | nil => exact ⟨q, rfl⟩
    | cons a as ih =>
      cases q with
      | nil => simp [pfx] at h
      | cons b bs =>
        simp only [pfx, Bool.and_eq_true, beq_iff_eq] at h
        obtain ⟨s, hs⟩ := ih h.2
        exact ⟨s, by simp [h.1, hs]⟩
  · rintro ⟨s, rfl⟩
    exact pfx_append p s

theorem pfx_length {p q : Path} (h : pfx p q = true) : p.length ≤ q.length := by
  obtain ⟨s, rfl⟩ := pfx_iff_exists.mp h
  simp

theorem pfx_trans {p q r : Path} (h1 : pfx p q = true) (h2 : pfx q r = true) :
    pfx p r = true := by
  obtain ⟨s, rfl⟩ := pfx_iff_exists.mp h1
  obtain ⟨t, rfl⟩ := pfx_iff_exists.mp h2
  rw [List.append_assoc]
  exact pfx_append p (s ++ t)

theorem pfx_append_cancel (d s₁ s₂ : Path) : pfx (d ++ s₁) (d ++ s₂) = pfx s₁ s₂ := by
  induction d with
  | nil => rfl
  | cons a as ih => simp [pfx, ih]

theorem pfx_cases {p q : Path} (h : pfx p q = true) :
    q = p ∨ strictUnder p q = true := by
  by_cases he : q = p
  · exact Or.inl he
  · right
    simp [strictUnder, h, he]

theorem strictUnder_pfx {p q : Path} (h : strictUnder p q = true) : pfx p q = true := by
  simp only [strictUnder, Bool.and_eq_true] at h
  exact h.1

theorem strictUnder_ne {p q : Path} (h : strictUnder p q = true) : q ≠ p := by
  simp only [strictUnder, Bool.and_eq_true, Bool.not_eq_true', beq_eq_false_iff_ne] at h
  exact h.2

theorem strictUnder_length {p q : Path} (h : strictUnder p q = true) :
    p.length < q.length := by
  obtain ⟨s, rfl⟩ := pfx_iff_exists.mp (strictUnder_pfx h)
  have hne := strictUnder_ne h
  cases s with
  | nil => simp at hne
  | cons a as => simp

theorem strictUnder_of_append {p : Path} {s : Path} (hs : s ≠ []) :
    strictUnder p (p ++ s) = true := by
  simp only [strictUnder, Bool.and_eq_true, pfx_append, true_and, Bool.not_eq_true',
    beq_eq_false_iff_ne]
  simpa using hs

theorem strictUnder_trans_pfx {p q r : Path} (h1 : strictUnder p q = true)
    (h2 : pfx q r = true) : strictUnder p r = true := by
  have hp : pfx p r = true := pfx_trans (strictUnder_pfx h1) h2
  rcases pfx_cases hp with he | hs
  · subst he
    have := pfx_length h2
    have := strictUnder_length h1
    omega
  · exact hs

theorem mem_ersP_of_ne {p q : Path} {l : List Path} (h : q ≠ p) :
    q ∈ ersP p l ↔ q ∈ l := by
  induction l with
  | nil => simp [ersP]
  | cons a as ih =>
    by_cases ha : a = p
    · subst ha; simp [ersP, h, ih]
    · simp only [ersP, if_neg ha, List.mem_cons, ih]

theorem ersP_subset {p q : Path} {l : List Path} (h : q ∈ ersP p l) : q ∈ l := by
  induction l with
  | nil => simpa [ersP] using h
  | cons a as ih =>
    by_cases ha : a = p
    · subst ha
      simp only [ersP, if_pos rfl] at h
      exact List.mem_cons_of_mem _ h
    · simp only [ersP, if_neg ha, List.mem_cons] at h
      rcases h with h | h
      · simp [h]
      · exact List.mem_cons_of_mem _ (ih h)

theorem cntP_eq_zero_iff {p : Path} {l : List Path} : cntP p l = 0 ↔ p ∉ l := by
  induction l with
  | nil => simp [cntP]
  | cons a as ih =>
    by_cases ha : a = p
    · subst ha; simp [cntP, ih]
    · simp [cntP, ha, ih, Ne.symm ha]

theorem cntP_ersP_self (p : Path) (l : List Path) :
    cntP p (ersP p l) = cntP p l - 1 := by
  induction l with
  | nil => simp [ersP, cntP]
  | cons a as ih =>
    by_cases ha : a = p
    · subst ha; simp [ersP, cntP]
    · simp only [ersP, if_neg ha, cntP, ih]
      omega

theorem cntP_ersP_le (q p : Path) (l : List Path) :
    cntP q (ersP p l) ≤ cntP q l := by
  induction l with
  | nil => simp [ersP]
  | cons a as ih =>
    by_cases ha : a = p
    · subst ha
      have he : ersP a (a :: as) = as := by simp [ersP]
      rw [he, cntP]
      split <;> omega
    · simp only [ersP, if_neg ha, cntP]
      omega

/-! ### remove_dir lemmas -/

theorem dirExists_iff {fs : FS} {p : Path} : fs.dirExists p = true ↔ p ∈ fs.dirs := by
  simp [FS.dirExists]

theorem remove_dir_subset {p q : Path} {fs : FS}
    (h : q ∈ (remove_dir p fs).dirs) : q ∈ fs.dirs := by
  simp only [remove_dir] at h
  split at h
  · exact ersP_subset h
  · exact h

theorem remove_dir_keep {p q : Path} {fs : FS} (hq : q ∈ fs.dirs) (hne : q ≠ p) :
    q ∈ (remove_dir p fs).dirs := by
  simp only [remove_dir]
  split
  · exact (mem_ersP_of_ne hne).mpr hq
  · exact hq

theorem remove_dir_cnt (q p : Path) (fs : FS) :
    cntP q (remove_dir p fs).dirs ≤ cntP q fs.dirs := by
  simp only [remove_dir]
  split
  · exact cntP_ersP_le q p fs.dirs
  · exact le_refl _

theorem remove_dir_gone {p : Path} {fs : FS} (hcnt : cntP p fs.dirs ≤ 1)
    (hnoext : ∀ q ∈ fs.dirs, strictUnder p q = false) :
    p ∉ (remove_dir p fs).dirs := by
  by_cases hp : p ∈ fs.dirs
  · have hcond : (fs.dirExists p && !(fs.dirs.any (fun q => strictUnder p q))) = true := by
      simp only [Bool.and_eq_true, dirExists_iff, hp, true_and, Bool.not_eq_true',
        List.any_eq_false]
      intro q hq
      simp [hnoext q hq]
    simp only [remove_dir, hcond, if_true]
    intro hmem
    have h0 : cntP p (ersP p fs.dirs) = 0 := by
      rw [cntP_ersP_self]
      omega
    exact cntP_eq_zero_iff.mp h0 hmem
  · intro hmem
    exact hp (remove_dir_subset hmem)

theorem remove_dir_not_mem {p q : Path} {fs : FS} (h : q ∉ fs.dirs) :
    q ∉ (remove_dir p fs).dirs :=
  fun hmem => h (remove_dir_subset hmem)

/-! ### Shape lemmas for the allowed-tree predicates -/

theorem lineAllowed_length {bank_dir : Path} {c : Bank} {q : Path}
    (h : lineAllowed bank_dir c q = true) :
    q.length = bank_dir.length + 1 ∨ q.length = bank_dir.length + 2 := by
  simp only [lineAllowed, Bool.or_eq_true, List.any_eq_true, beq_iff_eq] at h
  rcases h with ⟨na, _, rfl⟩ | ⟨oh, _, h | h⟩
  · simp
  · subst h; simp
  · subst h; simp

theorem lineAllowed_no_hog_ext {bank_dir : Path} {c : Bank} {q : Path} {o : Nat}
    (h : lineAllowed bank_dir c q = true)
    (hs : strictUnder (bank_dir ++ [Comp.line o, Comp.hogd]) q = true) : False := by
  have h1 := strictUnder_length hs
  rcases lineAllowed_length h with h2 | h2 <;> simp [h2] at h1 <;> omega

theorem lineAllowed_line_ext {bank_dir : Path} {c : Bank} {q : Path} {o : Nat}
    (h : lineAllowed bank_dir c q = true)
    (hs : strictUnder (bank_dir ++ [Comp.line o]) q = true) :
    q = bank_dir ++ [Comp.line o, Comp.hogd] ∧ hasKey o c.hogs = true := by
  simp only [lineAllowed, Bool.or_eq_true, List.any_eq_true, beq_iff_eq] at h
  have hlen := strictUnder_length hs
  rcases h with ⟨na, _, rfl⟩ | ⟨oh, hoh, h | h⟩
  · simp at hlen
  · subst h; simp at hlen
  · subst h
    have hp := strictUnder_pfx hs
    rw [show bank_dir ++ [Comp.line oh.1, Comp.hogd] =
        bank_dir ++ [Comp.line oh.1] ++ [Comp.hogd] by simp] at hp
    rw [show bank_dir ++ [Comp.line o] = bank_dir ++ ([Comp.line o] : Path) from rfl] at hp
    have : pfx ([Comp.line o] : Path) ([Comp.line oh.1] ++ [Comp.hogd]) = true := by
      have := pfx_append_cancel bank_dir [Comp.line o] ([Comp.line oh.1] ++ [Comp.hogd])
      rw [← List.append_assoc] at this
      rw [← this]
      exact hp
    simp only [List.cons_append, List.nil_append, pfx, Bool.and_eq_true, beq_iff_eq] at this
    have ho : o = oh.1 := by
      have := this.1
      injection this
    subst ho
    refine ⟨by simp, ?_⟩
    simp only [hasKey, List.any_eq_true, beq_iff_eq]
    exact ⟨oh, hoh, rfl⟩

theorem pfx_bank_eq {d : Path} {j i : Nat} {t : Path}
    (h : pfx (d ++ [Comp.bank j]) (d ++ [Comp.bank i] ++ t) = true) : j = i := by
  rw [List.append_assoc] at h
  rw [pfx_append_cancel] at h
  simp only [List.cons_append, List.nil_append, pfx, Bool.and_eq_true, beq_iff_eq] at h
  have := h.1
  injection this

theorem simAllowedFrom_under_bank {sim_dir : Path} {j : Nat} {q : Path} :
    ∀ (cfgs : List Bank) (i : Nat),
      simAllowedFrom sim_dir i cfgs q = true →
      strictUnder (sim_dir ++ [Comp.bank j]) q = true →
      ∃ k c, cfgs.get? k = some c ∧ i + k = j ∧
        lineAllowed (sim_dir ++ [Comp.bank j]) c q = true := by
  intro cfgs
  induction cfgs with
  | nil => intro i h _; simp [simAllowedFrom] at h
  | cons c rest ih =>
    intro i h hs
    simp only [simAllowedFrom, Bool.or_eq_true, beq_iff_eq] at h
    rcases h with (rfl | hline) | hrest
    · have hp := strictUnder_pfx hs
      have hj := pfx_bank_eq (t := ([] : Path)) (by simpa using hp)
      subst hj
      exact absurd rfl (strictUnder_ne hs)
    · have hj : j = i := by
        simp only [lineAllowed, Bool.or_eq_true, List.any_eq_true, beq_iff_eq] at hline
        have hp := strictUnder_pfx hs
        rcases hline with ⟨na, _, rfl⟩ | ⟨oh, _, h | h⟩
        · exact pfx_bank_eq (by simpa [List.append_assoc] using hp)
        · subst h; exact pfx_bank_eq (by simpa [List.append_assoc] using hp)
        · subst h; exact pfx_bank_eq (by simpa [List.append_assoc] using hp)
      subst hj
      exact ⟨0, c, rfl, by omega, hline⟩
    · obtain ⟨k, c', hget, hik, hline⟩ := ih (i + 1) hrest hs
      exact ⟨k + 1, c', by simpa using hget, by omega, hline⟩

/-! ### Monotonicity of teardown -/

theorem write_attr_state_dirs (env : Env) (dir : Path) (file data : String) (fs : FS) :
    ((write_attr env dir file data fs).state).dirs = fs.dirs := by
  simp only [write_attr]
  split <;> rfl

theorem cleanup_hogs_subset {bank_dir : Path} :
    ∀ (hs : List (Nat × Hog)) (fs : FS) (q : Path),
      q ∈ (cleanup_hogs bank_dir hs fs).dirs → q ∈ fs.dirs := by
  intro hs
  induction hs with
  | nil => intro fs q h; exact h
  | cons oh rest ih =>
    intro fs q h
    exact remove_dir_subset (remove_dir_subset (ih _ q h))

theorem cleanup_hogs_cnt {bank_dir : Path} :
    ∀ (hs : List (Nat × Hog)) (fs : FS) (q : Path),
      cntP q (cleanup_hogs bank_dir hs fs).dirs ≤ cntP q fs.dirs := by
  intro hs
  induction hs with
  | nil => intro fs q; exact le_refl _
  | cons oh rest ih =>
    intro fs q
    calc cntP q (cleanup_hogs bank_dir (oh :: rest) fs).dirs
        ≤ cntP q (remove_dir (bank_dir ++ [Comp.line oh.1])
            (remove_dir (bank_dir ++ [Comp.line oh.1, Comp.hogd]) fs)).dirs := ih _ q
      _ ≤ cntP q (remove_dir (bank_dir ++ [Comp.line oh.1, Comp.hogd]) fs).dirs :=
          remove_dir_cnt ..
      _ ≤ cntP q fs.dirs := remove_dir_cnt ..

theorem cleanup_hogs_keep {bank_dir : Path} :
    ∀ (hs : List (Nat × Hog)) (fs : FS) (q : Path),
      q ∈ fs.dirs → pfx bank_dir q = false →
      q ∈ (cleanup_hogs bank_dir hs fs).dirs := by
  intro hs
  induction hs with
  | nil => intro fs q h _; exact h
  | cons oh rest ih =>
    intro fs q h hp
    refine ih _ q ?_ hp
    refine remove_dir_keep (remove_dir_keep h ?_) ?_
    · intro he
      rw [he, show bank_dir ++ [Comp.line oh.1, Comp.hogd] =
          bank_dir ++ ([Comp.line oh.1, Comp.hogd] : Path) from rfl, pfx_append] at hp
      simp at hp
    · intro he
      rw [he, pfx_append] at hp
      simp at hp

theorem cleanup_names_subset {bank_dir : Path} :
    ∀ (ns : List (Nat × String)) (fs : FS) (q : Path),
      q ∈ (cleanup_names bank_dir ns fs).dirs → q ∈ fs.dirs := by
  intro ns
  induction ns with
  | nil => intro fs q h; exact h
  | cons na rest ih =>
    intro fs q h
    exact remove_dir_subset (ih _ q h)

theorem cleanup_names_cnt {bank_dir : Path} :
    ∀ (ns : List (Nat × String)) (fs : FS) (q : Path),
      cntP q (cleanup_names bank_dir ns fs).dirs ≤ cntP q fs.dirs := by
  intro ns
  induction ns with
  | nil => intro fs q; exact le_refl _
  | cons na rest ih =>
    intro fs q
    calc cntP q (cleanup_names bank_dir (na :: rest) fs).dirs
        ≤ cntP q (remove_dir (bank_dir ++ [Comp.line na.1]) fs).dirs := ih _ q
      _ ≤ cntP q fs.dirs := remove_dir_cnt ..

theorem cleanup_names_keep {bank_dir : Path} :
    ∀ (ns : List (Nat × String)) (fs : FS) (q : Path),
      q ∈ fs.dirs → pfx bank_dir q = false →
      q ∈ (cleanup_names bank_dir ns fs).dirs := by
  intro ns
  induction ns with
  | nil => intro fs q h _; exact h
  | cons na rest ih =>
    intro fs q h hp
    refine ih _ q (remove_dir_keep h ?_) hp
    intro he
    rw [he, pfx_append] at hp
    simp at hp

theorem cleanup_bank_subset {bank_dir : Path} {c : Bank} {fs : FS} {q : Path}
    (h : q ∈ (cleanup_bank bank_dir c fs).dirs) : q ∈ fs.dirs := by
  simp only [cleanup_bank] at h
  split at h
  · exact cleanup_hogs_subset _ _ q (cleanup_names_subset _ _ q (remove_dir_subset h))
  · exact h

theorem cleanup_bank_cnt (bank_dir : Path) (c : Bank) (fs : FS) (q : Path) :
    cntP q (cleanup_bank bank_dir c fs).dirs ≤ cntP q fs.dirs := by
  simp only [cleanup_bank]
  split
  · calc cntP q (remove_dir bank_dir
          (cleanup_names bank_dir c.names (cleanup_hogs bank_dir c.hogs fs))).dirs
        ≤ cntP q (cleanup_names bank_dir c.names (cleanup_hogs bank_dir c.hogs fs)).dirs :=
          remove_dir_cnt ..
      _ ≤ cntP q (cleanup_hogs bank_dir c.hogs fs).dirs := cleanup_names_cnt ..
      _ ≤ cntP q fs.dirs := cleanup_hogs_cnt ..
  · exact le_refl _

theorem cleanup_bank_keep {bank_dir : Path} {c : Bank} {fs : FS} {q : Path}
    (h : q ∈ fs.dirs) (hp : pfx bank_dir q = false) :
    q ∈ (cleanup_bank bank_dir c fs).dirs := by
  simp only [cleanup_bank]
  split
  · refine remove_dir_keep (cleanup_names_keep _ _ q (cleanup_hogs_keep _ _ q h hp) hp) ?_
    intro he
    rw [he, pfx_refl] at hp
    simp at hp
  · exact h

theorem cleanup_banks_subset {dir : Path} :
    ∀ (cs : List Bank) (i : Nat) (fs : FS) (q : Path),
      q ∈ (cleanup_banks dir i cs fs).dirs → q ∈ fs.dirs := by
  intro cs
  induction cs with
  | nil => intro i fs q h; exact h
  | cons c rest ih =>
    intro i fs q h
    exact cleanup_bank_subset (ih (i + 1) _ q h)

theorem cleanup_banks_cnt {dir : Path} :
    ∀ (cs : List Bank) (i : Nat) (fs : FS) (q : Path),
      cntP q (cleanup_banks dir i cs fs).dirs ≤ cntP q fs.dirs := by
  intro cs
  induction cs with
  | nil => intro i fs q; exact le_refl _
  | cons c rest ih =>
    intro i fs q
    calc cntP q (cleanup_banks dir (i + 1) rest (cleanup_bank (dir ++ [Comp.bank i]) c fs)).dirs
        ≤ cntP q (cleanup_bank (dir ++ [Comp.bank i]) c fs).dirs := ih (i + 1) _ q
      _ ≤ cntP q fs.dirs := cleanup_bank_cnt ..

/-! ### Teardown removes every directory of a partially built tree -/

theorem strictUnder_extend {p s q : Path} (hs : s ≠ [])
    (h : strictUnder (p ++ s) q = true) : strictUnder p q = true :=
  strictUnder_trans_pfx (strictUnder_of_append hs) (strictUnder_pfx h)

theorem cleanup_hogs_clears {c : Bank} {bank_dir : Path} :
    ∀ (hs : List (Nat × Hog)) (fs : FS),
      (∀ q ∈ fs.dirs, strictUnder bank_dir q = true → lineAllowed bank_dir c q = true) →
      (∀ q, strictUnder bank_dir q = true → cntP q fs.dirs ≤ 1) →
      ∀ oh ∈ hs,
        (bank_dir ++ [Comp.line oh.1]) ∉ (cleanup_hogs bank_dir hs fs).dirs ∧
        (bank_dir ++ [Comp.line oh.1, Comp.hogd]) ∉ (cleanup_hogs bank_dir hs fs).dirs := by
  intro hs
  induction hs with
  | nil => intro fs _ _ oh h; simp at h
  | cons oh0 rest ih =>
    intro fs hA hcnt oh hoh
    have hogGone : (bank_dir ++ [Comp.line oh0.1, Comp.hogd]) ∉
        (remove_dir (bank_dir ++ [Comp.line oh0.1, Comp.hogd]) fs).dirs := by
      apply remove_dir_gone
      · exact hcnt _ (strictUnder_of_append (by simp))
      · intro q hq
        by_contra hb
        rw [Bool.not_eq_false] at hb
        have hbq : strictUnder bank_dir q = true := strictUnder_extend (by simp) hb
        exact lineAllowed_no_hog_ext (hA q hq hbq) hb
    have lineGone : (bank_dir ++ [Comp.line oh0.1]) ∉
        (remove_dir (bank_dir ++ [Comp.line oh0.1])
          (remove_dir (bank_dir ++ [Comp.line oh0.1, Comp.hogd]) fs)).dirs := by
      apply remove_dir_gone
      · calc cntP (bank_dir ++ [Comp.line oh0.1])
              (remove_dir (bank_dir ++ [Comp.line oh0.1, Comp.hogd]) fs).dirs
            ≤ cntP (bank_dir ++ [Comp.line oh0.1]) fs.dirs := remove_dir_cnt ..
          _ ≤ 1 := hcnt _ (strictUnder_of_append (by simp))
      · intro q hq
        by_contra hb
        rw [Bool.not_eq_false] at hb
        have hqfs : q ∈ fs.dirs := remove_dir_subset hq
        have hbq : strictUnder bank_dir q = true := strictUnder_extend (by simp) hb
        have hthis := lineAllowed_line_ext (hA q hqfs hbq) hb
        exact hogGone (hthis.1 ▸ hq)
    simp only [cleanup_hogs]
    rcases List.mem_cons.mp hoh with rfl | hoh'
    · constructor
      · intro hmem
        exact lineGone (cleanup_hogs_subset _ _ _ hmem)
      · intro hmem
        exact (remove_dir_not_mem hogGone) (cleanup_hogs_subset _ _ _ hmem)
    · refine ih _ ?_ ?_ oh hoh'
      · intro q hq hbq
        exact hA q (remove_dir_subset (remove_dir_subset hq)) hbq
      · intro q hbq
        calc cntP q (remove_dir (bank_dir ++ [Comp.line oh0.1])
              (remove_dir (bank_dir ++ [Comp.line oh0.1, Comp.hogd]) fs)).dirs
            ≤ cntP q (remove_dir (bank_dir ++ [Comp.line oh0.1, Comp.hogd]) fs).dirs :=
              remove_dir_cnt ..
          _ ≤ cntP q fs.dirs := remove_dir_cnt ..
          _ ≤ 1 := hcnt q hbq

theorem hogs_all_gone {c : Bank} {bank_dir : Path} (fs : FS)
    (hA : ∀ q ∈ fs.dirs, strictUnder bank_dir q = true → lineAllowed bank_dir c q = true)
    (hcnt : ∀ q, strictUnder bank_dir q = true → cntP q fs.dirs ≤ 1) :
    ∀ o, (bank_dir ++ [Comp.line o, Comp.hogd]) ∉ (cleanup_hogs bank_dir c.hogs fs).dirs := by
  intro o hmem
  have hqfs : (bank_dir ++ [Comp.line o, Comp.hogd]) ∈ fs.dirs :=
    cleanup_hogs_subset _ _ _ hmem
  have hstrict : strictUnder bank_dir (bank_dir ++ [Comp.line o, Comp.hogd]) = true :=
    strictUnder_of_append (by simp)
  have hallowed := hA _ hqfs hstrict
  simp only [lineAllowed, Bool.or_eq_true, List.any_eq_true, beq_iff_eq] at hallowed
  rcases hallowed with ⟨na, _, he⟩ | ⟨oh, hoh, he | he⟩
  · have h2 := List.append_cancel_left he
    simp at h2
  · have h2 := List.append_cancel_left he
    simp at h2
  · have h2 := List.append_cancel_left he
    have ho : o = oh.1 := by
      injection h2 with h3 _
      injection h3
    subst ho
    exact (cleanup_hogs_clears c.hogs fs hA hcnt oh hoh).2 hmem

theorem cleanup_names_clears {c : Bank} {bank_dir : Path} :
    ∀ (ns : List (Nat × String)) (fs : FS),
      (∀ q ∈ fs.dirs, strictUnder bank_dir q = true → lineAllowed bank_dir c q = true) →
      (∀ q, strictUnder bank_dir q = true → cntP q fs.dirs ≤ 1) →
      (∀ o, (bank_dir ++ [Comp.line o, Comp.hogd]) ∉ fs.dirs) →
      ∀ na ∈ ns, (bank_dir ++ [Comp.line na.1]) ∉ (cleanup_names bank_dir ns fs).dirs := by
  intro ns
  induction ns with
  | nil => intro fs _ _ _ na h; simp at h
  | cons na0 rest ih =>
    intro fs hA hcnt hhog na hna
    have lineGone : (bank_dir ++ [Comp.line na0.1]) ∉
        (remove_dir (bank_dir ++ [Comp.line na0.1]) fs).dirs := by
      apply remove_dir_gone
      · exact hcnt _ (strictUnder_of_append (by simp))
      · intro q hq
        by_contra hb
        rw [Bool.not_eq_false] at hb
        have hbq : strictUnder bank_dir q = true := strictUnder_extend (by simp) hb
        have hthis := lineAllowed_line_ext (hA q hq hbq) hb
        exact hhog na0.1 (hthis.1 ▸ hq)
    simp only [cleanup_names]
    rcases List.mem_cons.mp hna with rfl | hna'
    · intro hmem
      exact lineGone (cleanup_names_subset _ _ _ hmem)
    · refine ih _ ?_ ?_ ?_ na hna'
      · intro q hq hbq
        exact hA q (remove_dir_subset hq) hbq
      · intro q hbq
        calc cntP q (remove_dir (bank_dir ++ [Comp.line na0.1]) fs).dirs
            ≤ cntP q fs.dirs := remove_dir_cnt ..
          _ ≤ 1 := hcnt q hbq
      · intro o
        exact remove_dir_not_mem (hhog o)

theorem lineAllowed_pfx {bank_dir : Path} {c : Bank} {q : Path}
    (h : lineAllowed bank_dir c q = true) : pfx bank_dir q = true := by
  simp only [lineAllowed, Bool.or_eq_true, List.any_eq_true, beq_iff_eq] at h
  rcases h with ⟨na, _, rfl⟩ | ⟨oh, _, h | h⟩ <;>
    first
      | exact pfx_append ..
      | (subst h; exact pfx_append ..)

theorem simAllowedFrom_pfx {sim_dir q : Path} :
    ∀ (cs : List Bank) (i : Nat), simAllowedFrom sim_dir i cs q = true →
      ∃ k c, cs.get? k = some c ∧ pfx (sim_dir ++ [Comp.bank (i + k)]) q = true := by
  intro cs
  induction cs with
  | nil => intro i h; simp [simAllowedFrom] at h
  | cons c rest ih =>
    intro i h
    simp only [simAllowedFrom, Bool.or_eq_true, beq_iff_eq] at h
    rcases h with (rfl | hline) | hrest
    · exact ⟨0, c, rfl, by simpa using pfx_refl (sim_dir ++ [Comp.bank i])⟩
    · exact ⟨0, c, rfl, by simpa using lineAllowed_pfx hline⟩
    · obtain ⟨k, c', hk, hp⟩ := ih (i + 1) hrest
      exact ⟨k + 1, c', by simpa using hk, by
        have : i + (k + 1) = (i + 1) + k := by omega
        rw [this]
        exact hp⟩

theorem cleanup_bank_clears {c : Bank} {bank_dir : Path} (fs : FS)
    (hA : ∀ q ∈ fs.dirs, strictUnder bank_dir q = true → lineAllowed bank_dir c q = true)
    (hcnt : ∀ q, pfx bank_dir q = true → cntP q fs.dirs ≤ 1)
    (hcl : (∃ q ∈ fs.dirs, strictUnder bank_dir q = true) → bank_dir ∈ fs.dirs) :
    ∀ q ∈ (cleanup_bank bank_dir c fs).dirs, pfx bank_dir q = false := by
  intro q hq
  by_contra hb
  rw [Bool.not_eq_false] at hb
  simp only [cleanup_bank] at hq
  by_cases hguard : fs.dirExists bank_dir = true
  · rw [if_pos hguard] at hq
    have hcnt' : ∀ r, strictUnder bank_dir r = true → cntP r fs.dirs ≤ 1 :=
      fun r hr => hcnt r (strictUnder_pfx hr)
    have hogGone : ∀ o, (bank_dir ++ [Comp.line o, Comp.hogd]) ∉
        (cleanup_hogs bank_dir c.hogs fs).dirs :=
      hogs_all_gone fs hA hcnt'
    have hA1 : ∀ r ∈ (cleanup_hogs bank_dir c.hogs fs).dirs,
        strictUnder bank_dir r = true → lineAllowed bank_dir c r = true :=
      fun r hr hbr => hA r (cleanup_hogs_subset _ _ _ hr) hbr
    have hcnt1 : ∀ r, strictUnder bank_dir r = true →
        cntP r (cleanup_hogs bank_dir c.hogs fs).dirs ≤ 1 :=
      fun r hr => le_trans (cleanup_hogs_cnt _ _ _) (hcnt' r hr)
    have namesGone : ∀ na ∈ c.names, (bank_dir ++ [Comp.line na.1]) ∉
        (cleanup_names bank_dir c.names (cleanup_hogs bank_dir c.hogs fs)).dirs :=
      cleanup_names_clears c.names _ hA1 hcnt1 hogGone
    have hogsLinesGone : ∀ oh ∈ c.hogs, (bank_dir ++ [Comp.line oh.1]) ∉
        (cleanup_names bank_dir c.names (cleanup_hogs bank_dir c.hogs fs)).dirs :=
      fun oh hoh hm => (cleanup_hogs_clears c.hogs fs hA hcnt' oh hoh).1
        (cleanup_names_subset _ _ _ hm)
    have hogGone2 : ∀ o, (bank_dir ++ [Comp.line o, Comp.hogd]) ∉
        (cleanup_names bank_dir c.names (cleanup_hogs bank_dir c.hogs fs)).dirs :=
      fun o hm => hogGone o (cleanup_names_subset _ _ _ hm)
    have noStrict : ∀ r ∈ (cleanup_names bank_dir c.names
        (cleanup_hogs bank_dir c.hogs fs)).dirs, strictUnder bank_dir r = false := by
      intro r hr
      by_contra hbr
      rw [Bool.not_eq_false] at hbr
      have hrfs : r ∈ fs.dirs :=
        cleanup_hogs_subset _ _ _ (cleanup_names_subset _ _ _ hr)
      have hal := hA r hrfs hbr
      simp only [lineAllowed, Bool.or_eq_true, List.any_eq_true, beq_iff_eq] at hal
      rcases hal with ⟨na, hna, he⟩ | ⟨oh, hoh, he | he⟩
      · exact namesGone na hna (he ▸ hr)
      · exact hogsLinesGone oh hoh (he ▸ hr)
      · exact hogGone2 oh.1 (he ▸ hr)
    have bankGone : bank_dir ∉ (remove_dir bank_dir
        (cleanup_names bank_dir c.names (cleanup_hogs bank_dir c.hogs fs))).dirs := by
      apply remove_dir_gone
      · exact le_trans (le_trans (cleanup_names_cnt ..) (cleanup_hogs_cnt ..))
          (hcnt _ (pfx_refl _))
      · exact noStrict
    rcases pfx_cases hb with he | hstr
    · exact bankGone (he ▸ hq)
    · have hq2 : q ∈ (cleanup_names bank_dir c.names
          (cleanup_hogs bank_dir c.hogs fs)).dirs := remove_dir_subset hq
      exact absurd hstr (by simp [noStrict q hq2])
  · rw [if_neg hguard] at hq
    rcases pfx_cases hb with he | hstr
    · subst he
      exact hguard (dirExists_iff.mpr hq)
    · exact hguard (dirExists_iff.mpr (hcl ⟨q, hq, hstr⟩))

theorem cleanup_banks_clears {dir : Path} :
    ∀ (cs : List Bank) (i : Nat) (fs : FS),
      (∀ q ∈ fs.dirs, ∀ k c, cs.get? k = some c →
        strictUnder (dir ++ [Comp.bank (i + k)]) q = true →
        lineAllowed (dir ++ [Comp.bank (i + k)]) c q = true) →
      (∀ q, pfx dir q = true → cntP q fs.dirs ≤ 1) →
      (∀ k c, cs.get? k = some c →
        (∃ q ∈ fs.dirs, strictUnder (dir ++ [Comp.bank (i + k)]) q = true) →
        (dir ++ [Comp.bank (i + k)]) ∈ fs.dirs) →
      ∀ k c, cs.get? k = some c →
        ∀ q ∈ (cleanup_banks dir i cs fs).dirs, pfx (dir ++ [Comp.bank (i + k)]) q = false := by
  intro cs
  induction cs with
  | nil => intro i fs _ _ _ k c hk; simp at hk
  | cons c0 rest ih =>
    intro i fs hA hcnt hcl k c hk q hq
    have hA0 : ∀ r ∈ fs.dirs, strictUnder (dir ++ [Comp.bank i]) r = true →
        lineAllowed (dir ++ [Comp.bank i]) c0 r = true := by
      intro r hr hs
      have h := hA r hr 0 c0 rfl (by simpa using hs)
      simpa using h
    have hcnt0 : ∀ r, pfx (dir ++ [Comp.bank i]) r = true → cntP r fs.dirs ≤ 1 :=
      fun r hpr => hcnt r (pfx_trans (pfx_append dir _) hpr)
    have hcl0 : (∃ r ∈ fs.dirs, strictUnder (dir ++ [Comp.bank i]) r = true) →
        (dir ++ [Comp.bank i]) ∈ fs.dirs := by
      intro hex
      have h := hcl 0 c0 rfl (by simpa using hex)
      simpa using h
    have hhead := @cleanup_bank_clears c0 (dir ++ [Comp.bank i]) fs
      hA0 hcnt0 hcl0
    simp only [cleanup_banks] at hq
    cases k with
    | zero =>
      have hq1 : q ∈ (cleanup_bank (dir ++ [Comp.bank i]) c0 fs).dirs :=
        cleanup_banks_subset rest (i + 1) _ q hq
      have h := hhead q hq1
      simpa using h
    | succ k2 =>
      have hk2 : rest.get? k2 = some c := by simpa using hk
      have harith : i + (k2 + 1) = (i + 1) + k2 := by omega
      rw [harith]
      refine ih (i + 1) _ ?_ ?_ ?_ k2 c hk2 q hq
      · intro r hr k3 c3 hk3 hs
        have ha2 : (i + 1) + k3 = i + (k3 + 1) := by omega
        rw [ha2] at hs ⊢
        exact hA r (cleanup_bank_subset hr) (k3 + 1) c3 (by simpa using hk3) hs
      · intro r hpr
        exact le_trans (cleanup_bank_cnt ..) (hcnt r hpr)
      · intro k3 c3 hk3 hex
        have ha2 : (i + 1) + k3 = i + (k3 + 1) := by omega
        rw [ha2] at hex ⊢
        have hmem : (dir ++ [Comp.bank (i + (k3 + 1))]) ∈ fs.dirs := by
          apply hcl (k3 + 1) c3 (by simpa using hk3)
          obtain ⟨r, hr, hsr⟩ := hex
          exact ⟨r, cleanup_bank_subset hr, hsr⟩
        apply cleanup_bank_keep hmem
        by_contra hbp
        rw [Bool.not_eq_false] at hbp
        have hji := pfx_bank_eq (t := ([] : Path)) (by simpa using hbp)
        omega

theorem cleanup_configfs_complete (env : Env) (sim : Sim) (fs : FS)
    (h : PartialTree sim.dir (sim.chips.map Chip.cfg) fs) :
    ∀ q ∈ (sim.cleanup_configfs env fs).dirs, pfx sim.dir q = false := by
  obtain ⟨hA, hcnt, hcl, hbankcl⟩ := h
  intro q hq
  by_contra hb
  rw [Bool.not_eq_false] at hb
  simp only [Sim.cleanup_configfs] at hq
  by_cases hguard : fs.dirExists sim.dir = true
  · rw [if_pos hguard] at hq
    have hdirs0 : ((write_attr env sim.dir "live" "0" fs).state).dirs = fs.dirs :=
      write_attr_state_dirs ..
    have hcntG : ∀ r, pfx sim.dir r = true → cntP r fs.dirs ≤ 1 := by
      intro r hpr
      by_cases hrm : r ∈ fs.dirs
      · exact hcnt r hrm hpr
      · rw [cntP_eq_zero_iff.mpr hrm]
        omega
    have hclear := @cleanup_banks_clears sim.dir (sim.chips.map Chip.cfg) 0
      ((write_attr env sim.dir "live" "0" fs).state)
      (by
        intro r hr k c hk hs
        rw [hdirs0] at hr
        have hpfxr : pfx sim.dir r = true :=
          pfx_trans (pfx_append sim.dir _) (strictUnder_pfx hs)
        have hal := hA r hr hpfxr
        simp only [simAllowed, Bool.or_eq_true, beq_iff_eq] at hal
        rcases hal with rfl | hfrom
        · have h1 := strictUnder_length hs
          simp at h1
        · obtain ⟨k', c', hk', hkk, hal'⟩ := simAllowedFrom_under_bank _ 0 hfrom hs
          have hkconv : k' = k := by omega
          subst hkconv
          rw [hk] at hk'
          injection hk' with hcc
          subst hcc
          exact hal')
      (by
        intro r hpr
        rw [hdirs0]
        exact hcntG r hpr)
      (by
        intro k c hk hex
        rw [hdirs0, Nat.zero_add]
        apply hbankcl k (by
          have h4 := List.get?_eq_some.mp hk
          simpa using h4.1)
        obtain ⟨r, hr, hsr⟩ := hex
        rw [hdirs0] at hr
        rw [Nat.zero_add] at hsr
        exact ⟨r, hr, hsr⟩)
    have noStrict : ∀ r ∈ (cleanup_banks sim.dir 0 (sim.chips.map Chip.cfg)
        ((write_attr env sim.dir "live" "0" fs).state)).dirs,
        strictUnder sim.dir r = false := by
      intro r hr
      by_contra hbr
      rw [Bool.not_eq_false] at hbr
      have hrfs : r ∈ fs.dirs := by
        have h2 := cleanup_banks_subset _ _ _ r hr
        rwa [hdirs0] at h2
      have hal := hA r hrfs (strictUnder_pfx hbr)
      simp only [simAllowed, Bool.or_eq_true, beq_iff_eq] at hal
      rcases hal with rfl | hfrom
      · exact absurd rfl (strictUnder_ne hbr)
      · obtain ⟨k, c, hk, hpk⟩ := simAllowedFrom_pfx _ 0 hfrom
        have h3 := hclear k c hk r hr
        rw [Nat.zero_add] at h3 hpk
        exact absurd hpk (by simp [h3])
    have simGone : sim.dir ∉ (remove_dir sim.dir (cleanup_banks sim.dir 0
        (sim.chips.map Chip.cfg) ((write_attr env sim.dir "live" "0" fs).state))).dirs := by
      apply remove_dir_gone
      · calc cntP sim.dir (cleanup_banks sim.dir 0 (sim.chips.map Chip.cfg)
              ((write_attr env sim.dir "live" "0" fs).state)).dirs
            ≤ cntP sim.dir ((write_attr env sim.dir "live" "0" fs).state).dirs :=
              cleanup_banks_cnt ..
          _ = cntP sim.dir fs.dirs := by rw [hdirs0]
          _ ≤ 1 := hcntG _ (pfx_refl _)
      · exact noStrict
    rcases pfx_cases hb with he | hstr
    · exact simGone (he ▸ hq)
    · have hq1 := remove_dir_subset hq
      exact absurd hstr (by simp [noStrict q hq1])
  · rw [if_neg hguard] at hq
    rcases pfx_cases hb with he | hstr
    · subst he
      exact hguard (dirExists_iff.mpr hq)
    · exact hguard (dirExists_iff.mpr (hcl ⟨q, hq, hstr⟩))

theorem cleanup_configfs_subset (env : Env) (sim : Sim) (fs : FS) (q : Path)
    (h : q ∈ (sim.cleanup_configfs env fs).dirs) : q ∈ fs.dirs := by
  simp only [Sim.cleanup_configfs] at h
  split at h
  · have h1 := remove_dir_subset h
    have h2 := cleanup_banks_subset _ _ _ q h1
    rwa [write_attr_state_dirs] at h2
  · exact h

theorem cleanup_configfs_noop (env : Env) (sim : Sim) (fs : FS)
    (h : fs.dirExists sim.dir = false) : sim.cleanup_configfs env fs = fs := by
  simp [Sim.cleanup_configfs, h]

/-- C5: teardown (`cleanup_configfs`, also run on drop) is a total function —
never surfacing an error and never panicking — that (i) does nothing when the
top-level directory no longer exists, (ii) only ever removes directories
(every removal failure is ignored), and (iii) on any possibly partially built
resource tree, a second invocation has no effect beyond the first: teardown
is idempotent. -/
theorem C5_cleanup_idempotent_best_effort :
    ∀ (env : Env) (sim : Sim) (fs : FS),
      (fs.dirExists sim.dir = false → sim.cleanup_configfs env fs = fs)
      ∧ (∀ q ∈ (sim.cleanup_configfs env fs).dirs, q ∈ fs.dirs)
      ∧ (PartialTree sim.dir (sim.chips.map Chip.cfg) fs →
          sim.cleanup_configfs env (sim.cleanup_configfs env fs) =
            sim.cleanup_configfs env fs) := by
  intro env sim fs
  refine ⟨cleanup_configfs_noop env sim fs, fun q hq => cleanup_configfs_subset env sim fs q hq, ?_⟩
  intro hPT
  have hgone : sim.dir ∉ (sim.cleanup_configfs env fs).dirs := by
    intro hmem
    have h := cleanup_configfs_complete env sim fs hPT sim.dir hmem
    rw [pfx_refl] at h
    exact Bool.noConfusion h
  apply cleanup_configfs_noop
  rw [Bool.eq_false_iff]
  intro hT
  exact hgone (dirExists_iff.mp hT)

theorem C5_witness :
    (c5Sim.cleanup_configfs okEnv emptyFS = emptyFS)
    ∧ (c5Sim.cleanup_configfs okEnv (c5Sim.cleanup_configfs okEnv c5FS) =
        c5Sim.cleanup_configfs okEnv c5FS) :=
  ⟨(C5_cleanup_idempotent_best_effort okEnv c5Sim emptyFS).1 (by decide),
   (C5_cleanup_idempotent_best_effort okEnv c5Sim c5FS).2.2 (by decide)⟩

/-! ### Provenance of directories created during activation -/

theorem create_dir_cases (env : Env) (p : Path) (fs : FS) :
    create_dir env p fs = .err .IoError fs ∨
    (p ∉ fs.dirs ∧ create_dir env p fs = .ok () (fs.addDir p)) := by
  simp only [create_dir, FS.addDir]
  by_cases h1 : fs.dirExists p = true
  · left; rw [if_pos h1]
  · rw [if_neg h1]
    by_cases h2 : env.createOk p = true
    · right
      refine ⟨fun hm => h1 (dirExists_iff.mpr hm), ?_⟩
      rw [if_pos h2]
    · left; rw [if_neg h2]

theorem write_attr_cases (env : Env) (dir : Path) (file data : String) (fs : FS) :
    write_attr env dir file data fs = .err .IoError fs ∨
    write_attr env dir file data fs = .ok () (fs.putAttr dir file data) := by
  simp only [write_attr, FS.putAttr]
  split
  · right; rfl
  · left; rfl

theorem state_bind_write {β : Type} (en : Env) (dp : Path) (fl vl : String) (g : FS)
    (f : Unit → FS → Res β) (P : FS → Prop)
    (hok : P (Res.state (f () (g.putAttr dp fl vl))))
    (herr : P g) :
    P (Res.state ((write_attr en dp fl vl g).bind f)) := by
  rcases write_attr_cases en dp fl vl g with hw | hw <;> rw [hw]
  · exact herr
  · exact hok

theorem state_bind_create {β : Type} (en : Env) (dp : Path) (g : FS)
    (f : Unit → FS → Res β) (P : FS → Prop)
    (hok : dp ∉ g.dirs → P (Res.state (f () (g.addDir dp))))
    (herr : P g) :
    P (Res.state ((create_dir en dp g).bind f)) := by
  rcases create_dir_cases en dp g with hc | ⟨hnm, hc⟩ <;> rw [hc]
  · exact herr
  · exact hok hnm

theorem putAttr_dirs (fs : FS) (dir : Path) (file data : String) :
    (fs.putAttr dir file data).dirs = fs.dirs := rfl

theorem addDir_dirs (fs : FS) (p : Path) : (fs.addDir p).dirs = p :: fs.dirs := rfl

theorem setup_names_mono (env : Env) (bank_dir : Path) :
    ∀ (ns : List (Nat × String)) (fs : FS) (q : Path), q ∈ fs.dirs →
      q ∈ (Res.state (setup_names env bank_dir ns fs)).dirs := by
  intro ns
  induction ns with
  | nil => intro fs q h; exact h
  | cons na rest ih =>
    intro fs q h
    simp only [setup_names]
    apply state_bind_create (P := fun st => q ∈ st.dirs)
    · intro _
      apply state_bind_write (P := fun st => q ∈ st.dirs)
      · refine ih _ q ?_
        simp only [putAttr_dirs, addDir_dirs, List.mem_cons]
        exact Or.inr h
      · simp only [addDir_dirs, List.mem_cons]
        exact Or.inr h
    · exact h

theorem setup_names_prov (env : Env) (bank_dir : Path) :
    ∀ (ns : List (Nat × String)) (fs : FS) (q : Path),
      q ∈ (Res.state (setup_names env bank_dir ns fs)).dirs →
      q ∈ fs.dirs ∨ ∃ o, hasKey o ns = true ∧ q = bank_dir ++ [Comp.line o] := by
  intro ns
  induction ns with
  | nil => intro fs q h; exact Or.inl h
  | cons na rest ih =>
    intro fs q
    simp only [setup_names]
    apply state_bind_create (P := fun st => q ∈ st.dirs →
      q ∈ fs.dirs ∨ ∃ o, hasKey o (na :: rest) = true ∧ q = bank_dir ++ [Comp.line o])
    · intro _
      apply state_bind_write (P := fun st => q ∈ st.dirs →
        q ∈ fs.dirs ∨ ∃ o, hasKey o (na :: rest) = true ∧ q = bank_dir ++ [Comp.line o])
      · intro h
        rcases ih _ q h with hin | ⟨o, ho, he⟩
        · simp only [putAttr_dirs, addDir_dirs, List.mem_cons] at hin
          rcases hin with he | hin
          · exact Or.inr ⟨na.1, by simp [hasKey], he⟩
          · exact Or.inl hin
        · refine Or.inr ⟨o, ?_, he⟩
          simp only [hasKey, List.any_eq_true] at ho ⊢
          obtain ⟨e, hmem, hkey⟩ := ho
          exact ⟨e, List.mem_cons_of_mem _ hmem, hkey⟩
      · intro h
        simp only [addDir_dirs, List.mem_cons] at h
        rcases h with he | hin
        · exact Or.inr ⟨na.1, by simp [hasKey], he⟩
        · exact Or.inl hin
    · intro h
      exact Or.inl h

theorem setup_names_cnt (env : Env) (bank_dir : Path) :
    ∀ (ns : List (Nat × String)) (fs : FS) (q : Path),
      (q ∈ fs.dirs → cntP q (Res.state (setup_names env bank_dir ns fs)).dirs =
        cntP q fs.dirs)
      ∧ (q ∉ fs.dirs → cntP q (Res.state (setup_names env bank_dir ns fs)).dirs ≤ 1) := by
  intro ns
  induction ns with
  | nil =>
    intro fs q
    constructor
    · intro _; rfl
    · intro h
      have : cntP q fs.dirs = 0 := cntP_eq_zero_iff.mpr h
      simp only [setup_names, Res.state]
      omega
  | cons na rest ih =>
    intro fs q
    constructor
    · intro hq
      simp only [setup_names]
      apply state_bind_create (P := fun st => cntP q st.dirs = cntP q fs.dirs)
      · intro hnm
        have hne : bank_dir ++ [Comp.line na.1] ≠ q := fun he => hnm (he ▸ hq)
        apply state_bind_write (P := fun st => cntP q st.dirs = cntP q fs.dirs)
        · rw [(ih _ q).1 (by
            simp only [putAttr_dirs, addDir_dirs, List.mem_cons]
            exact Or.inr hq)]
          simp only [putAttr_dirs, addDir_dirs, cntP, if_neg hne]
          omega
        · simp only [addDir_dirs, cntP, if_neg hne]
          omega
      · rfl
    · intro hq
      simp only [setup_names]
      apply state_bind_create (P := fun st => cntP q st.dirs ≤ 1)
      · intro hnm
        by_cases he : bank_dir ++ [Comp.line na.1] = q
        · apply state_bind_write (P := fun st => cntP q st.dirs ≤ 1)
          · rw [(ih _ q).1 (by
              simp only [putAttr_dirs, addDir_dirs, List.mem_cons]
              exact Or.inl he.symm)]
            simp only [putAttr_dirs, addDir_dirs, cntP, if_pos he]
            rw [cntP_eq_zero_iff.mpr hq]
          · simp only [addDir_dirs, cntP, if_pos he]
            rw [cntP_eq_zero_iff.mpr hq]
        · apply state_bind_write (P := fun st => cntP q st.dirs ≤ 1)
          · refine (ih _ q).2 ?_
            simp only [putAttr_dirs, addDir_dirs, List.mem_cons]
            rintro (h1 | h1)
            · exact he (h1.symm)
            · exact hq h1
          · simp only [addDir_dirs, cntP, if_neg he]
            rw [cntP_eq_zero_iff.mpr hq]
            omega
      · rw [cntP_eq_zero_iff.mpr hq]
        omega

theorem state_bind_exists_create {β : Type} (en : Env) (dp : Path) (g : FS)
    (f : Unit → FS → Res β) (P : FS → Prop)
    (hok1 : g.dirExists dp = true → P (Res.state (f () g)))
    (hok2 : dp ∉ g.dirs → P (Res.state (f () (g.addDir dp))))
    (herr : P g) :
    P (Res.state (((if g.dirExists dp then Res.ok () g
        else create_dir en dp g) : Res Unit).bind f)) := by
  by_cases hms : g.dirExists dp = true
  · rw [if_pos hms, Res.bind_ok]
    exact hok1 hms
  · rw [if_neg hms]
    exact state_bind_create en dp g f P hok2 herr

theorem setup_hogs_mono (env : Env) (bank_dir : Path) :
    ∀ (hs : List (Nat × Hog)) (fs : FS) (q : Path), q ∈ fs.dirs →
      q ∈ (Res.state (setup_hogs env bank_dir hs fs)).dirs := by
  intro hs
  induction hs with
  | nil => intro fs q h; exact h
  | cons oh rest ih =>
    intro fs q h
    simp only [setup_hogs]
    apply state_bind_exists_create (P := fun st => q ∈ st.dirs)
    case hok1 =>
      intro _
      apply state_bind_create (P := fun st => q ∈ st.dirs)
      · intro _
        apply state_bind_write (P := fun st => q ∈ st.dirs)
        · apply state_bind_write (P := fun st => q ∈ st.dirs)
          · refine ih _ q ?_
            simp only [putAttr_dirs, addDir_dirs, List.mem_cons]
            exact Or.inr h
          · simp only [putAttr_dirs, addDir_dirs, List.mem_cons]
            exact Or.inr h
        · simp only [addDir_dirs, List.mem_cons]
          exact Or.inr h
      · exact h
    case hok2 =>
      intro _
      apply state_bind_create (P := fun st => q ∈ st.dirs)
      · intro _
        apply state_bind_write (P := fun st => q ∈ st.dirs)
        · apply state_bind_write (P := fun st => q ∈ st.dirs)
          · refine ih _ q ?_
            simp only [putAttr_dirs, addDir_dirs, List.mem_cons]
            exact Or.inr (Or.inr h)
          · simp only [putAttr_dirs, addDir_dirs, List.mem_cons]
            exact Or.inr (Or.inr h)
        · simp only [addDir_dirs, List.mem_cons]
          exact Or.inr (Or.inr h)
      · simp only [addDir_dirs, List.mem_cons]
        exact Or.inr h
    case herr => exact h

theorem hasKey_tail {α : Type} {o : Nat} (e : Nat × α) {l : List (Nat × α)}
    (h : hasKey o l = true) : hasKey o (e :: l) = true := by
  simp only [hasKey, List.any_eq_true] at h ⊢
  obtain ⟨x, hx, hk⟩ := h
  exact ⟨x, List.mem_cons_of_mem _ hx, hk⟩

theorem hasKey_head {α : Type} (e : Nat × α) (l : List (Nat × α)) :
    hasKey e.1 (e :: l) = true := by
  simp [hasKey]

theorem setup_hogs_prov (env : Env) (bank_dir : Path) :
    ∀ (hs : List (Nat × Hog)) (fs : FS) (q : Path),
      q ∈ (Res.state (setup_hogs env bank_dir hs fs)).dirs →
      q ∈ fs.dirs ∨ ∃ o, hasKey o hs = true ∧
        (q = bank_dir ++ [Comp.line o] ∨ q = bank_dir ++ [Comp.line o, Comp.hogd]) := by
  intro hs
  induction hs with
  | nil => intro fs q h; exact Or.inl h
  | cons oh rest ih =>
    intro fs q
    -- after the additions of this step, membership in the base state `fs`
    -- extended by the hog directory and possibly the line directory reduces
    -- to the stated shapes
    have hsplit : ∀ (g : FS), (∀ r, r ∈ g.dirs →
        (r ∈ fs.dirs ∨ r = bank_dir ++ [Comp.line oh.1] ∨
         r = bank_dir ++ [Comp.line oh.1, Comp.hogd])) →
        q ∈ (Res.state (setup_hogs env bank_dir rest g)).dirs →
        q ∈ fs.dirs ∨ ∃ o, hasKey o (oh :: rest) = true ∧
          (q = bank_dir ++ [Comp.line o] ∨ q = bank_dir ++ [Comp.line o, Comp.hogd]) := by
      intro g hg h
      rcases ih g q h with hin | ⟨o, ho, hsh⟩
      · rcases hg q hin with h1 | h1 | h1
        · exact Or.inl h1
        · exact Or.inr ⟨oh.1, hasKey_head oh rest, Or.inl h1⟩
        · exact Or.inr ⟨oh.1, hasKey_head oh rest, Or.inr h1⟩
      · exact Or.inr ⟨o, hasKey_tail oh ho, hsh⟩
    simp only [setup_hogs]
    apply state_bind_exists_create (P := fun st => q ∈ st.dirs →
      q ∈ fs.dirs ∨ ∃ o, hasKey o (oh :: rest) = true ∧
        (q = bank_dir ++ [Comp.line o] ∨ q = bank_dir ++ [Comp.line o, Comp.hogd]))
    case hok1 =>
      intro _
      apply state_bind_create (P := fun st => q ∈ st.dirs →
        q ∈ fs.dirs ∨ ∃ o, hasKey o (oh :: rest) = true ∧
          (q = bank_dir ++ [Comp.line o] ∨ q = bank_dir ++ [Comp.line o, Comp.hogd]))
      · intro _
        apply state_bind_write (P := fun st => q ∈ st.dirs →
          q ∈ fs.dirs ∨ ∃ o, hasKey o (oh :: rest) = true ∧
            (q = bank_dir ++ [Comp.line o] ∨ q = bank_dir ++ [Comp.line o, Comp.hogd]))
        · apply state_bind_write (P := fun st => q ∈ st.dirs →
            q ∈ fs.dirs ∨ ∃ o, hasKey o (oh :: rest) = true ∧
              (q = bank_dir ++ [Comp.line o] ∨ q = bank_dir ++ [Comp.line o, Comp.hogd]))
          · refine hsplit _ ?_
            intro r hr
            simp only [putAttr_dirs, addDir_dirs, List.mem_cons] at hr
            rcases hr with h1 | h1
            · exact Or.inr (Or.inr h1)
            · exact Or.inl h1
          · intro h
            simp only [putAttr_dirs, addDir_dirs, List.mem_cons] at h
            rcases h with h1 | h1
            · exact Or.inr ⟨oh.1, hasKey_head oh rest, Or.inr h1⟩
            · exact Or.inl h1
        · intro h
          simp only [addDir_dirs, List.mem_cons] at h
          rcases h with h1 | h1
          · exact Or.inr ⟨oh.1, hasKey_head oh rest, Or.inr h1⟩
          · exact Or.inl h1
      · intro h
        exact Or.inl h
    case hok2 =>
      intro _
      apply state_bind_create (P := fun st => q ∈ st.dirs →
        q ∈ fs.dirs ∨ ∃ o, hasKey o (oh :: rest) = true ∧
          (q = bank_dir ++ [Comp.line o] ∨ q = bank_dir ++ [Comp.line o, Comp.hogd]))
      · intro _
        apply state_bind_write (P := fun st => q ∈ st.dirs →
          q ∈ fs.dirs ∨ ∃ o, hasKey o (oh :: rest) = true ∧
            (q = bank_dir ++ [Comp.line o] ∨ q = bank_dir ++ [Comp.line o, Comp.hogd]))
        · apply state_bind_write (P := fun st => q ∈ st.dirs →
            q ∈ fs.dirs ∨ ∃ o, hasKey o (oh :: rest) = true ∧
              (q = bank_dir ++ [Comp.line o] ∨ q = bank_dir ++ [Comp.line o, Comp.hogd]))
          · refine hsplit _ ?_
            intro r hr
            simp only [putAttr_dirs, addDir_dirs, List.mem_cons] at hr
            rcases hr with h1 | h1 | h1
            · exact Or.inr (Or.inr h1)
            · exact Or.inr (Or.inl h1)
            · exact Or.inl h1
          · intro h
            simp only [putAttr_dirs, addDir_dirs, List.mem_cons] at h
            rcases h with h1 | h1 | h1
            · exact Or.inr ⟨oh.1, hasKey_head oh rest, Or.inr h1⟩
            · exact Or.inr ⟨oh.1, hasKey_head oh rest, Or.inl h1⟩
            · exact Or.inl h1
        · intro h
          simp only [addDir_dirs, List.mem_cons] at h
          rcases h with h1 | h1 | h1
          · exact Or.inr ⟨oh.1, hasKey_head oh rest, Or.inr h1⟩
          · exact Or.inr ⟨oh.1, hasKey_head oh rest, Or.inl h1⟩
          · exact Or.inl h1
      · intro h
        simp only [addDir_dirs, List.mem_cons] at h
        rcases h with h1 | h1
        · exact Or.inr ⟨oh.1, hasKey_head oh rest, Or.inl h1⟩
        · exact Or.inl h1
    case herr =>
      intro h
      exact Or.inl h

theorem line_ne_hog (bank_dir : Path) (o o' : Nat) :
    bank_dir ++ [Comp.line o] ≠ bank_dir ++ [Comp.line o', Comp.hogd] := by
  intro h
  have h2 := List.append_cancel_left h
  simp at h2

theorem setup_hogs_cnt (env : Env) (bank_dir : Path) :
    ∀ (hs : List (Nat × Hog)) (fs : FS) (q : Path),
      (q ∈ fs.dirs → cntP q (Res.state (setup_hogs env bank_dir hs fs)).dirs =
        cntP q fs.dirs)
      ∧ (q ∉ fs.dirs → cntP q (Res.state (setup_hogs env bank_dir hs fs)).dirs ≤ 1) := by
  intro hs
  induction hs with
  | nil =>
    intro fs q
    constructor
    · intro _; rfl
    · intro h
      have h0 : cntP q fs.dirs = 0 := cntP_eq_zero_iff.mpr h
      simp only [setup_hogs, Res.state]
      omega
  | cons oh rest ih =>
    intro fs q
    constructor
    · intro hq
      simp only [setup_hogs]
      apply state_bind_exists_create (P := fun st => cntP q st.dirs = cntP q fs.dirs)
      case hok1 =>
        intro _
        apply state_bind_create (P := fun st => cntP q st.dirs = cntP q fs.dirs)
        · intro hnm
          have hne2 : bank_dir ++ [Comp.line oh.1, Comp.hogd] ≠ q := fun he => hnm (he ▸ hq)
          apply state_bind_write (P := fun st => cntP q st.dirs = cntP q fs.dirs)
          · apply state_bind_write (P := fun st => cntP q st.dirs = cntP q fs.dirs)
            · rw [(ih _ q).1 (by
                simp only [putAttr_dirs, addDir_dirs, List.mem_cons]
                exact Or.inr hq)]
              simp only [putAttr_dirs, addDir_dirs, cntP, if_neg hne2]
              omega
            · simp only [putAttr_dirs, addDir_dirs, cntP, if_neg hne2]
              omega
          · simp only [addDir_dirs, cntP, if_neg hne2]
            omega
        · rfl
      case hok2 =>
        intro hnm1
        have hne1 : bank_dir ++ [Comp.line oh.1] ≠ q := fun he => hnm1 (he ▸ hq)
        apply state_bind_create (P := fun st => cntP q st.dirs = cntP q fs.dirs)
        · intro hnm
          have hne2 : bank_dir ++ [Comp.line oh.1, Comp.hogd] ≠ q := by
            intro he
            apply hnm
            rw [he]
            simp only [addDir_dirs, List.mem_cons]
            exact Or.inr hq
          apply state_bind_write (P := fun st => cntP q st.dirs = cntP q fs.dirs)
          · apply state_bind_write (P := fun st => cntP q st.dirs = cntP q fs.dirs)
            · rw [(ih _ q).1 (by
                simp only [putAttr_dirs, addDir_dirs, List.mem_cons]
                exact Or.inr (Or.inr hq))]
              simp only [putAttr_dirs, addDir_dirs, cntP, if_neg hne2, if_neg hne1]
              omega
            · simp only [putAttr_dirs, addDir_dirs, cntP, if_neg hne2, if_neg hne1]
              omega
          · simp only [addDir_dirs, cntP, if_neg hne2, if_neg hne1]
            omega
        · simp only [addDir_dirs, cntP, if_neg hne1]
          omega
      case herr => rfl
    · intro hq
      have h0 : cntP q fs.dirs = 0 := cntP_eq_zero_iff.mpr hq
      simp only [setup_hogs]
      apply state_bind_exists_create (P := fun st => cntP q st.dirs ≤ 1)
      case hok1 =>
        intro hms
        apply state_bind_create (P := fun st => cntP q st.dirs ≤ 1)
        · intro hnm
          by_cases he2 : bank_dir ++ [Comp.line oh.1, Comp.hogd] = q
          · apply state_bind_write (P := fun st => cntP q st.dirs ≤ 1)
            · apply state_bind_write (P := fun st => cntP q st.dirs ≤ 1)
              · rw [(ih _ q).1 (by
                  simp only [putAttr_dirs, addDir_dirs, List.mem_cons]
                  exact Or.inl he2.symm)]
                simp only [putAttr_dirs, addDir_dirs, cntP, if_pos he2]
                omega
              · simp only [putAttr_dirs, addDir_dirs, cntP, if_pos he2]
                omega
            · simp only [addDir_dirs, cntP, if_pos he2]
              omega
          · apply state_bind_write (P := fun st => cntP q st.dirs ≤ 1)
            · apply state_bind_write (P := fun st => cntP q st.dirs ≤ 1)
              · refine (ih _ q).2 ?_
                simp only [putAttr_dirs, addDir_dirs, List.mem_cons]
                rintro (h1 | h1)
                · exact he2 h1.symm
                · exact hq h1
              · simp only [putAttr_dirs, addDir_dirs, cntP, if_neg he2]
                omega
            · simp only [addDir_dirs, cntP, if_neg he2]
              omega
        · omega
      case hok2 =>
        intro hnm1
        apply state_bind_create (P := fun st => cntP q st.dirs ≤ 1)
        · intro hnm
          by_cases he2 : bank_dir ++ [Comp.line oh.1, Comp.hogd] = q
          · have hne1 : ¬(bank_dir ++ [Comp.line oh.1] = q) := fun he =>
              line_ne_hog bank_dir oh.1 oh.1 (he.trans he2.symm)
            apply state_bind_write (P := fun st => cntP q st.dirs ≤ 1)
            · apply state_bind_write (P := fun st => cntP q st.dirs ≤ 1)
              · rw [(ih _ q).1 (by
                  simp only [putAttr_dirs, addDir_dirs, List.mem_cons]
                  exact Or.inl he2.symm)]
                simp only [putAttr_dirs, addDir_dirs, cntP, if_pos he2, if_neg hne1]
                omega
              · simp only [putAttr_dirs, addDir_dirs, cntP, if_pos he2, if_neg hne1]
                omega
            · simp only [addDir_dirs, cntP, if_pos he2, if_neg hne1]
              omega
          · by_cases he1 : bank_dir ++ [Comp.line oh.1] = q
            · apply state_bind_write (P := fun st => cntP q st.dirs ≤ 1)
              · apply state_bind_write (P := fun st => cntP q st.dirs ≤ 1)
                · rw [(ih _ q).1 (by
                    simp only [putAttr_dirs, addDir_dirs, List.mem_cons]
                    exact Or.inr (Or.inl he1.symm))]
                  simp only [putAttr_dirs, addDir_dirs, cntP, if_neg he2, if_pos he1]
                  omega
                · simp only [putAttr_dirs, addDir_dirs, cntP, if_neg he2, if_pos he1]
                  omega
              · simp only [addDir_dirs, cntP, if_neg he2, if_pos he1]
                omega
            · apply state_bind_write (P := fun st => cntP q st.dirs ≤ 1)
              · apply state_bind_write (P := fun st => cntP q st.dirs ≤ 1)
                · refine (ih _ q).2 ?_
                  simp only [putAttr_dirs, addDir_dirs, List.mem_cons]
                  rintro (h1 | h1 | h1)
                  · exact he2 h1.symm
                  · exact he1 h1.symm
                  · exact hq h1
                · simp only [putAttr_dirs, addDir_dirs, cntP, if_neg he2, if_neg he1]
                  omega
              · simp only [addDir_dirs, cntP, if_neg he2, if_neg he1]
                omega
        · by_cases he1 : bank_dir ++ [Comp.line oh.1] = q
          · simp only [addDir_dirs, cntP, if_pos he1]
            omega
          · simp only [addDir_dirs, cntP, if_neg he1]
            omega
      case herr => omega

theorem state_bind_general {β γ : Type} (r : Res β) (f : β → FS → Res γ) (P : FS → Prop)
    (hok : ∀ a g, r = .ok a g → P (Res.state (f a g)))
    (herr : P (Res.state r)) :
    P (Res.state (r.bind f)) := by
  cases r with
  | ok a g => exact hok a g rfl
  | err e g => exact herr
  | fatal m g => exact herr

theorem lineAllowed_of_name {c : Bank} {bank_dir : Path} {o : Nat}
    (h : hasKey o c.names = true) :
    lineAllowed bank_dir c (bank_dir ++ [Comp.line o]) = true := by
  simp only [hasKey, List.any_eq_true, beq_iff_eq] at h
  obtain ⟨e, he, hk⟩ := h
  simp only [lineAllowed, Bool.or_eq_true, List.any_eq_true, beq_iff_eq]
  exact Or.inl ⟨e, he, by rw [hk]⟩

theorem lineAllowed_of_hog_line {c : Bank} {bank_dir : Path} {o : Nat}
    (h : hasKey o c.hogs = true) :
    lineAllowed bank_dir c (bank_dir ++ [Comp.line o]) = true := by
  simp only [hasKey, List.any_eq_true, beq_iff_eq] at h
  obtain ⟨e, he, hk⟩ := h
  simp only [lineAllowed, Bool.or_eq_true, List.any_eq_true, beq_iff_eq]
  exact Or.inr ⟨e, he, Or.inl (by rw [hk])⟩

theorem lineAllowed_of_hog_hog {c : Bank} {bank_dir : Path} {o : Nat}
    (h : hasKey o c.hogs = true) :
    lineAllowed bank_dir c (bank_dir ++ [Comp.line o, Comp.hogd]) = true := by
  simp only [hasKey, List.any_eq_true, beq_iff_eq] at h
  obtain ⟨e, he, hk⟩ := h
  simp only [lineAllowed, Bool.or_eq_true, List.any_eq_true, beq_iff_eq]
  exact Or.inr ⟨e, he, Or.inr (by rw [hk])⟩

theorem setup_banks_mono (env : Env) (dir : Path) :
    ∀ (cs : List Bank) (i : Nat) (fs : FS) (q : Path), q ∈ fs.dirs →
      q ∈ (Res.state (setup_banks env dir i cs fs)).dirs := by
  intro cs
  induction cs with
  | nil => intro i fs q h; exact h
  | cons c rest ih =>
    intro i fs q h
    simp only [setup_banks]
    apply state_bind_create (P := fun st => q ∈ st.dirs)
    · intro _
      apply state_bind_write (P := fun st => q ∈ st.dirs)
      · apply state_bind_write (P := fun st => q ∈ st.dirs)
        · apply state_bind_general (P := fun st => q ∈ st.dirs)
          · intro a g hg
            apply state_bind_general (P := fun st => q ∈ st.dirs)
            · intro a2 g2 hg2
              refine ih (i + 1) g2 q ?_
              have h1 : q ∈ (Res.state (setup_names env (dir ++ [Comp.bank i]) c.names
                  (((fs.addDir (dir ++ [Comp.bank i])).putAttr (dir ++ [Comp.bank i])
                    "label" c.label).putAttr (dir ++ [Comp.bank i]) "num_lines"
                    (natDecimal c.num_lines)))).dirs := by
                apply setup_names_mono
                simp only [putAttr_dirs, addDir_dirs, List.mem_cons]
                exact Or.inr h
              rw [hg] at h1
              have h2 : q ∈ (Res.state (setup_hogs env (dir ++ [Comp.bank i]) c.hogs g)).dirs :=
                setup_hogs_mono env _ c.hogs g q h1
              rw [hg2] at h2
              exact h2
            · apply setup_hogs_mono
              have h1 : q ∈ (Res.state (setup_names env (dir ++ [Comp.bank i]) c.names
                  (((fs.addDir (dir ++ [Comp.bank i])).putAttr (dir ++ [Comp.bank i])
                    "label" c.label).putAttr (dir ++ [Comp.bank i]) "num_lines"
                    (natDecimal c.num_lines)))).dirs := by
                apply setup_names_mono
                simp only [putAttr_dirs, addDir_dirs, List.mem_cons]
                exact Or.inr h
              rw [hg] at h1
              exact h1
          · apply setup_names_mono
            simp only [putAttr_dirs, addDir_dirs, List.mem_cons]
            exact Or.inr h
        · simp only [putAttr_dirs, addDir_dirs, List.mem_cons]
          exact Or.inr h
      · simp only [addDir_dirs, List.mem_cons]
        exact Or.inr h
    · exact h

theorem setup_banks_prov (env : Env) (dir : Path) :
    ∀ (cs : List Bank) (i : Nat) (fs : FS) (q : Path),
      q ∈ (Res.state (setup_banks env dir i cs fs)).dirs →
      q ∈ fs.dirs ∨ ∃ k c, cs.get? k = some c ∧
        ((q = dir ++ [Comp.bank (i + k)]) ∨
         (lineAllowed (dir ++ [Comp.bank (i + k)]) c q = true ∧
          (dir ++ [Comp.bank (i + k)]) ∈ (Res.state (setup_banks env dir i cs fs)).dirs)) := by
  intro cs
  induction cs with
  | nil => intro i fs q h; exact Or.inl h
  | cons c rest ih =>
    intro i fs q
    simp only [setup_banks]
    apply state_bind_create (P := fun st => q ∈ st.dirs →
      q ∈ fs.dirs ∨ ∃ k c', (c :: rest).get? k = some c' ∧
        ((q = dir ++ [Comp.bank (i + k)]) ∨
         (lineAllowed (dir ++ [Comp.bank (i + k)]) c' q = true ∧
          (dir ++ [Comp.bank (i + k)]) ∈ st.dirs)))
    case herr => intro h; exact Or.inl h
    intro hnm
    apply state_bind_write (P := fun st => q ∈ st.dirs →
      q ∈ fs.dirs ∨ ∃ k c', (c :: rest).get? k = some c' ∧
        ((q = dir ++ [Comp.bank (i + k)]) ∨
         (lineAllowed (dir ++ [Comp.bank (i + k)]) c' q = true ∧
          (dir ++ [Comp.bank (i + k)]) ∈ st.dirs)))
    case herr =>
      intro h
      simp only [addDir_dirs, List.mem_cons] at h
      rcases h with he | h
      · exact Or.inr ⟨0, c, rfl, Or.inl (by rw [Nat.add_zero]; exact he)⟩
      · exact Or.inl h
    apply state_bind_write (P := fun st => q ∈ st.dirs →
      q ∈ fs.dirs ∨ ∃ k c', (c :: rest).get? k = some c' ∧
        ((q = dir ++ [Comp.bank (i + k)]) ∨
         (lineAllowed (dir ++ [Comp.bank (i + k)]) c' q = true ∧
          (dir ++ [Comp.bank (i + k)]) ∈ st.dirs)))
    case herr =>
      intro h
      simp only [putAttr_dirs, addDir_dirs, List.mem_cons] at h
      rcases h with he | h
      · exact Or.inr ⟨0, c, rfl, Or.inl (by rw [Nat.add_zero]; exact he)⟩
      · exact Or.inl h
    -- name the state entering setup_names
    have hd : ((((fs.addDir (dir ++ [Comp.bank i])).putAttr (dir ++ [Comp.bank i])
        "label" c.label).putAttr (dir ++ [Comp.bank i]) "num_lines"
        (natDecimal c.num_lines))).dirs = (dir ++ [Comp.bank i]) :: fs.dirs := rfl
    generalize hgen : (((fs.addDir (dir ++ [Comp.bank i])).putAttr (dir ++ [Comp.bank i])
        "label" c.label).putAttr (dir ++ [Comp.bank i]) "num_lines"
        (natDecimal c.num_lines)) = g3
    rw [hgen] at hd
    -- reduction of any state reachable from g3 to the stated shapes
    have hred : ∀ (st : FS), (q ∈ st.dirs →
        (q ∈ g3.dirs ∨
         (∃ o, (hasKey o c.names = true ∨ hasKey o c.hogs = true) ∧
          q = (dir ++ [Comp.bank i]) ++ [Comp.line o]) ∨
         (∃ o, hasKey o c.hogs = true ∧
          q = (dir ++ [Comp.bank i]) ++ [Comp.line o, Comp.hogd]))) →
        ((dir ++ [Comp.bank i]) ∈ st.dirs) →
        q ∈ st.dirs →
        q ∈ fs.dirs ∨ ∃ k c', (c :: rest).get? k = some c' ∧
          ((q = dir ++ [Comp.bank (i + k)]) ∨
           (lineAllowed (dir ++ [Comp.bank (i + k)]) c' q = true ∧
            (dir ++ [Comp.bank (i + k)]) ∈ st.dirs)) := by
      intro st hprov hbmem hq
      rcases hprov hq with hin | hsh
      · rw [hd] at hin
        rcases List.mem_cons.mp hin with he | hin
        · exact Or.inr ⟨0, c, rfl, Or.inl (by rw [Nat.add_zero]; exact he)⟩
        · exact Or.inl hin
      · refine Or.inr ⟨0, c, rfl, Or.inr ⟨?_, by rw [Nat.add_zero]; exact hbmem⟩⟩
        rw [Nat.add_zero]
        rcases hsh with ⟨o, hko, he⟩ | ⟨o, hko, he⟩
        · subst he
          rcases hko with hn | hh
          · exact lineAllowed_of_name hn
          · exact lineAllowed_of_hog_line hh
        · subst he
          exact lineAllowed_of_hog_hog hko
    apply state_bind_general (P := fun st => q ∈ st.dirs →
      q ∈ fs.dirs ∨ ∃ k c', (c :: rest).get? k = some c' ∧
        ((q = dir ++ [Comp.bank (i + k)]) ∨
         (lineAllowed (dir ++ [Comp.bank (i + k)]) c' q = true ∧
          (dir ++ [Comp.bank (i + k)]) ∈ st.dirs)))
    case herr =>
      apply hred
      · intro hq
        rcases setup_names_prov env _ c.names g3 q hq with hin | ⟨o, ho, he⟩
        · exact Or.inl hin
        · exact Or.inr (Or.inl ⟨o, Or.inl ho, he⟩)
      · apply setup_names_mono
        rw [hd]
        exact List.mem_cons_self _ _
    intro a g hg
    have hgdirs : ∀ r, r ∈ g.dirs → r ∈ (Res.state (setup_names env
        (dir ++ [Comp.bank i]) c.names g3)).dirs := by
      intro r hr
      rw [hg]
      exact hr
    have hbg : (dir ++ [Comp.bank i]) ∈ g.dirs := by
      have hb : (dir ++ [Comp.bank i]) ∈ (Res.state (setup_names env
          (dir ++ [Comp.bank i]) c.names g3)).dirs := by
        apply setup_names_mono
        rw [hd]
        exact List.mem_cons_self _ _
      rw [hg] at hb
      exact hb
    apply state_bind_general (P := fun st => q ∈ st.dirs →
      q ∈ fs.dirs ∨ ∃ k c', (c :: rest).get? k = some c' ∧
        ((q = dir ++ [Comp.bank (i + k)]) ∨
         (lineAllowed (dir ++ [Comp.bank (i + k)]) c' q = true ∧
          (dir ++ [Comp.bank (i + k)]) ∈ st.dirs)))
    case herr =>
      apply hred
      · intro hq
        rcases setup_hogs_prov env _ c.hogs g q hq with hin | ⟨o, ho, he | he⟩
        · have h2 : q ∈ (Res.state (setup_names env (dir ++ [Comp.bank i])
              c.names g3)).dirs := hgdirs q hin
          rcases setup_names_prov env _ c.names g3 q h2 with hin2 | ⟨o, ho, he⟩
          · exact Or.inl hin2
          · exact Or.inr (Or.inl ⟨o, Or.inl ho, he⟩)
        · exact Or.inr (Or.inl ⟨o, Or.inr ho, he⟩)
        · exact Or.inr (Or.inr ⟨o, ho, he⟩)
      · exact setup_hogs_mono env _ c.hogs g _ hbg
    intro a2 g2 hg2
    have hbfin : (dir ++ [Comp.bank i]) ∈
        (Res.state (setup_banks env dir (i + 1) rest g2)).dirs := by
      apply setup_banks_mono
      have hb2 : (dir ++ [Comp.bank i]) ∈
          (Res.state (setup_hogs env (dir ++ [Comp.bank i]) c.hogs g)).dirs :=
        setup_hogs_mono env _ c.hogs g _ hbg
      rw [hg2] at hb2
      exact hb2
    intro hq
    rcases ih (i + 1) g2 q hq with hin | ⟨k, c', hk, hsh⟩
    · have hq2 : q ∈ (Res.state (setup_hogs env (dir ++ [Comp.bank i]) c.hogs g)).dirs := by
        rw [hg2]
        exact hin
      rcases setup_hogs_prov env _ c.hogs g q hq2 with hin2 | ⟨o, ho, he | he⟩
      · have hq3 : q ∈ (Res.state (setup_names env (dir ++ [Comp.bank i])
            c.names g3)).dirs := hgdirs q hin2
        rcases setup_names_prov env _ c.names g3 q hq3 with hin3 | ⟨o, ho, he⟩
        · rw [hd] at hin3
          rcases List.mem_cons.mp hin3 with he | hin4
          · exact Or.inr ⟨0, c, rfl, Or.inl (by rw [Nat.add_zero]; exact he)⟩
          · exact Or.inl hin4
        · refine Or.inr ⟨0, c, rfl, Or.inr ⟨?_, by rw [Nat.add_zero]; exact hbfin⟩⟩
          rw [Nat.add_zero, he]
          exact lineAllowed_of_name ho
      · refine Or.inr ⟨0, c, rfl, Or.inr ⟨?_, by rw [Nat.add_zero]; exact hbfin⟩⟩
        rw [Nat.add_zero, he]
        exact lineAllowed_of_hog_line ho
      · refine Or.inr ⟨0, c, rfl, Or.inr ⟨?_, by rw [Nat.add_zero]; exact hbfin⟩⟩
        rw [Nat.add_zero, he]
        exact lineAllowed_of_hog_hog ho
    · refine Or.inr ⟨k + 1, c', by simpa using hk, ?_⟩
      have harith : i + (k + 1) = (i + 1) + k := by omega
      rw [harith]
      exact hsh

theorem setup_banks_cnt (env : Env) (dir : Path) :
    ∀ (cs : List Bank) (i : Nat) (fs : FS) (q : Path),
      (q ∈ fs.dirs → cntP q (Res.state (setup_banks env dir i cs fs)).dirs = cntP q fs.dirs)
      ∧ (q ∉ fs.dirs → cntP q (Res.state (setup_banks env dir i cs fs)).dirs ≤ 1) := by
  intro cs
  induction cs with
  | nil =>
    intro i fs q
    constructor
    · intro _; rfl
    · intro h
      have h0 : cntP q fs.dirs = 0 := cntP_eq_zero_iff.mpr h
      simp only [setup_banks, Res.state]
      omega
  | cons c rest ih =>
    intro i fs q
    have hstage : ∀ (g3 : FS),
        (q ∈ g3.dirs → cntP q (Res.state ((setup_names env (dir ++ [Comp.bank i])
            c.names g3).bind (fun _ fs => (setup_hogs env (dir ++ [Comp.bank i])
            c.hogs fs).bind (fun _ fs => setup_banks env dir (i + 1) rest fs)))).dirs =
          cntP q g3.dirs)
        ∧ (q ∉ g3.dirs → cntP q (Res.state ((setup_names env (dir ++ [Comp.bank i])
            c.names g3).bind (fun _ fs => (setup_hogs env (dir ++ [Comp.bank i])
            c.hogs fs).bind (fun _ fs => setup_banks env dir (i + 1) rest fs)))).dirs ≤ 1) := by
      intro g3
      constructor
      · intro hq
        apply state_bind_general (P := fun st => cntP q st.dirs = cntP q g3.dirs)
        · intro a g hg
          have h1 := (setup_names_cnt env (dir ++ [Comp.bank i]) c.names g3 q).1 hq
          rw [hg] at h1
          simp only [Res.state] at h1
          have hmem : q ∈ g.dirs := by
            have h2 := setup_names_mono env (dir ++ [Comp.bank i]) c.names g3 q hq
            rw [hg] at h2
            exact h2
          apply state_bind_general (P := fun st => cntP q st.dirs = cntP q g3.dirs)
          · intro a2 g2 hg2
            have h3 := (setup_hogs_cnt env (dir ++ [Comp.bank i]) c.hogs g q).1 hmem
            rw [hg2] at h3
            simp only [Res.state] at h3
            have hmem2 : q ∈ g2.dirs := by
              have h4 := setup_hogs_mono env (dir ++ [Comp.bank i]) c.hogs g q hmem
              rw [hg2] at h4
              exact h4
            rw [(ih (i + 1) g2 q).1 hmem2, h3, h1]
          · rw [(setup_hogs_cnt env (dir ++ [Comp.bank i]) c.hogs g q).1 hmem, h1]
        · exact (setup_names_cnt env (dir ++ [Comp.bank i]) c.names g3 q).1 hq
      · intro hq
        apply state_bind_general (P := fun st => cntP q st.dirs ≤ 1)
        · intro a g hg
          have h1 := (setup_names_cnt env (dir ++ [Comp.bank i]) c.names g3 q).2 hq
          rw [hg] at h1
          simp only [Res.state] at h1
          by_cases hm : q ∈ g.dirs
          · apply state_bind_general (P := fun st => cntP q st.dirs ≤ 1)
            · intro a2 g2 hg2
              have h3 := (setup_hogs_cnt env (dir ++ [Comp.bank i]) c.hogs g q).1 hm
              rw [hg2] at h3
              simp only [Res.state] at h3
              have hmem2 : q ∈ g2.dirs := by
                have h4 := setup_hogs_mono env (dir ++ [Comp.bank i]) c.hogs g q hm
                rw [hg2] at h4
                exact h4
              rw [(ih (i + 1) g2 q).1 hmem2, h3]
              exact h1
            · rw [(setup_hogs_cnt env (dir ++ [Comp.bank i]) c.hogs g q).1 hm]
              exact h1
          · have h5 := (setup_hogs_cnt env (dir ++ [Comp.bank i]) c.hogs g q).2 hm
            apply state_bind_general (P := fun st => cntP q st.dirs ≤ 1)
            · intro a2 g2 hg2
              rw [hg2] at h5
              simp only [Res.state] at h5
              by_cases hm2 : q ∈ g2.dirs
              · rw [(ih (i + 1) g2 q).1 hm2]
                exact h5
              · exact (ih (i + 1) g2 q).2 hm2
            · exact h5
        · exact (setup_names_cnt env (dir ++ [Comp.bank i]) c.names g3 q).2 hq
    constructor
    · intro hq
      simp only [setup_banks]
      apply state_bind_create (P := fun st => cntP q st.dirs = cntP q fs.dirs)
      · intro hnm
        have hne : dir ++ [Comp.bank i] ≠ q := fun he => hnm (he ▸ hq)
        apply state_bind_write (P := fun st => cntP q st.dirs = cntP q fs.dirs)
        · apply state_bind_write (P := fun st => cntP q st.dirs = cntP q fs.dirs)
          · rw [(hstage _).1 (by
              simp only [putAttr_dirs, addDir_dirs, List.mem_cons]
              exact Or.inr hq)]
            simp only [putAttr_dirs, addDir_dirs, cntP, if_neg hne]
            omega
          · simp only [putAttr_dirs, addDir_dirs, cntP, if_neg hne]
            omega
        · simp only [addDir_dirs, cntP, if_neg hne]
          omega
      · rfl
    · intro hq
      have h0 : cntP q fs.dirs = 0 := cntP_eq_zero_iff.mpr hq
      simp only [setup_banks]
      apply state_bind_create (P := fun st => cntP q st.dirs ≤ 1)
      · intro hnm
        by_cases heb : dir ++ [Comp.bank i] = q
        · apply state_bind_write (P := fun st => cntP q st.dirs ≤ 1)
          · apply state_bind_write (P := fun st => cntP q st.dirs ≤ 1)
            · rw [(hstage _).1 (by
                simp only [putAttr_dirs, addDir_dirs, List.mem_cons]
                exact Or.inl heb.symm)]
              simp only [putAttr_dirs, addDir_dirs, cntP, if_pos heb]
              omega
            · simp only [putAttr_dirs, addDir_dirs, cntP, if_pos heb]
              omega
          · simp only [addDir_dirs, cntP, if_pos heb]
            omega
        · apply state_bind_write (P := fun st => cntP q st.dirs ≤ 1)
          · apply state_bind_write (P := fun st => cntP q st.dirs ≤ 1)
            · refine (hstage _).2 ?_
              simp only [putAttr_dirs, addDir_dirs, List.mem_cons]
              rintro (h1 | h1)
              · exact heb h1.symm
              · exact hq h1
            · simp only [putAttr_dirs, addDir_dirs, cntP, if_neg heb]
              omega
          · simp only [addDir_dirs, cntP, if_neg heb]
            omega
      · omega

theorem Sim_live_err_dirs (env : Env) (sim : Sim) (fs : FS) (e : Error) (fs' : FS)
    (h : sim.live env fs = .err e fs') :
    fs'.dirs = (Res.state (sim.setup_configfs env fs)).dirs := by
  simp only [Sim.live] at h
  cases hsetup : sim.setup_configfs env fs with
  | fatal m fs₀ => rw [hsetup] at h; exact absurd h (by simp [Res.bind])
  | err e₀ fs₀ =>
    rw [hsetup] at h
    simp only [Res.bind_err] at h
    injection h with h1 h2
    rw [← h2]; rfl
  | ok u fs₀ =>
    rw [hsetup] at h
    simp only [Res.bind_ok] at h
    rcases write_attr_cases env sim.dir "live" "1" fs₀ with hw | hw <;> rw [hw] at h
    · simp only [Res.bind_err] at h
      injection h with h1 h2
      rw [← h2]; rfl
    · simp only [Res.bind_ok] at h
      simp only [Sim.read_attrs, read_attr] at h
      cases hdn : env.readVal sim.dir "dev_name" with
      | none =>
        rw [hdn] at h
        simp only [Res.bind_err] at h
        injection h with h1 h2
        rw [← h2]
        rfl
      | some dn =>
        rw [hdn] at h
        simp only [Res.bind_ok] at h
        cases hrc : read_chips env sim.dir dn 0 sim.chips (fs₀.putAttr sim.dir "live" "1") with
        | ok cs fs₂ => rw [hrc] at h; exact absurd h (by simp [Res.bind])
        | fatal m fs₂ => rw [hrc] at h; exact absurd h (by simp [Res.bind])
        | err e₂ fs₂ =>
          rw [hrc] at h
          simp only [Res.bind_err] at h
          injection h with h1 h2
          have hst := read_chips_state env sim.dir dn sim.chips 0
            (fs₀.putAttr sim.dir "live" "1")
          rw [hrc] at hst
          simp only [Res.state] at hst
          rw [← h2, hst]
          rfl

theorem simAllowedFrom_of_get {sim_dir : Path} :
    ∀ (cs : List Bank) (i k : Nat) (c : Bank) (q : Path),
      cs.get? k = some c →
      (q = sim_dir ++ [Comp.bank (i + k)] ∨
       lineAllowed (sim_dir ++ [Comp.bank (i + k)]) c q = true) →
      simAllowedFrom sim_dir i cs q = true := by
  intro cs
  induction cs with
  | nil => intro i k c q hk; simp at hk
  | cons c0 rest ih =>
    intro i k c q hk hsh
    cases k with
    | zero =>
      have hc : c = c0 := by
        simp only [List.get?] at hk
        injection hk with h1
        exact h1.symm
      subst hc
      rw [Nat.add_zero] at hsh
      simp only [simAllowedFrom, Bool.or_eq_true, beq_iff_eq]
      rcases hsh with he | hl
      · exact Or.inl (Or.inl he)
      · exact Or.inl (Or.inr hl)
    | succ k2 =>
      have hk2 : rest.get? k2 = some c := by simpa using hk
      have harith : i + (k2 + 1) = (i + 1) + k2 := by omega
      rw [harith] at hsh
      simp only [simAllowedFrom, Bool.or_eq_true]
      exact Or.inr (ih (i + 1) k2 c q hk2 hsh)

theorem map_cfg_of_blank (banks : List Bank) :
    (banks.map blankChip).map Chip.cfg = banks := by
  induction banks with
  | nil => rfl
  | cons b bs ih =>
    simp only [List.map_cons, ih]
    rfl

theorem live_err_cleanup_clears (env : Env) (sim : Sim) (fs : FS)
    (hclean : ∀ q ∈ fs.dirs, pfx sim.dir q = false)
    (e : Error) (fs₂ : FS)
    (hlive : sim.live env (fs.addDir sim.dir) = .err e fs₂) :
    ∀ q ∈ (sim.cleanup_configfs env fs₂).dirs, pfx sim.dir q = false := by
  intro q hq
  have hnotin : sim.dir ∉ fs.dirs := by
    intro hm
    have hc := hclean sim.dir hm
    rw [pfx_refl] at hc
    exact Bool.noConfusion hc
  have hdirs2 : fs₂.dirs =
      (Res.state (setup_banks env sim.dir 0 (sim.chips.map Chip.cfg)
        (fs.addDir sim.dir))).dirs :=
    Sim_live_err_dirs env sim (fs.addDir sim.dir) e fs₂ hlive
  have hcleanf1 : ∀ r ∈ (fs.addDir sim.dir).dirs, pfx sim.dir r = true → r = sim.dir := by
    intro r hr hp
    rcases List.mem_cons.mp hr with rfl | hrm
    · rfl
    · rw [hclean r hrm] at hp
      exact Bool.noConfusion hp
  have hPT : PartialTree sim.dir (sim.chips.map Chip.cfg) fs₂ := by
    unfold PartialTree
    refine ⟨?_, ?_, ?_, ?_⟩
    · intro r hr hp
      rw [hdirs2] at hr
      rcases setup_banks_prov env sim.dir (sim.chips.map Chip.cfg) 0
          (fs.addDir sim.dir) r hr with hin | ⟨k, c, hk, hdis⟩
      · have hrd := hcleanf1 r hin hp
        subst hrd
        simp [simAllowed]
      · have hfrom : simAllowedFrom sim.dir 0 (sim.chips.map Chip.cfg) r = true := by
          rcases hdis with heq | ⟨hline, _⟩
          · exact simAllowedFrom_of_get _ 0 k c r hk (Or.inl heq)
          · exact simAllowedFrom_of_get _ 0 k c r hk (Or.inr hline)
        simp [simAllowed, hfrom]
    · intro r hr hp
      rw [hdirs2] at hr ⊢
      obtain ⟨hci, hco⟩ := setup_banks_cnt env sim.dir (sim.chips.map Chip.cfg) 0
        (fs.addDir sim.dir) r
      by_cases hrin : r ∈ (fs.addDir sim.dir).dirs
      · rw [hci hrin]
        have hrd := hcleanf1 r hrin hp
        subst hrd
        have h0 : cntP sim.dir fs.dirs = 0 := cntP_eq_zero_iff.mpr hnotin
        show cntP sim.dir (sim.dir :: fs.dirs) ≤ 1
        simp [cntP, h0]
      · exact hco hrin
    · rw [hdirs2]
      intro _
      exact setup_banks_mono env sim.dir (sim.chips.map Chip.cfg) 0
        (fs.addDir sim.dir) sim.dir (List.mem_cons_self _ _)
    · intro j hj hex2
      rw [hdirs2] at hex2 ⊢
      obtain ⟨r, hr, hs⟩ := hex2
      rcases setup_banks_prov env sim.dir (sim.chips.map Chip.cfg) 0
          (fs.addDir sim.dir) r hr with hin | ⟨k, c, hk, hdis⟩
      · have hpfx : pfx sim.dir r = true :=
          pfx_trans (pfx_append sim.dir [Comp.bank j]) (strictUnder_pfx hs)
        have hrd := hcleanf1 r hin hpfx
        subst hrd
        have hl := strictUnder_length hs
        simp only [List.length_append, List.length_cons, List.length_nil] at hl
        omega
      · rcases hdis with heq | ⟨hline, hbank⟩
        · subst heq
          have hl := strictUnder_length hs
          simp only [List.length_append, List.length_cons, List.length_nil] at hl
          omega
        · obtain ⟨s, hqeq⟩ := pfx_iff_exists.mp (lineAllowed_pfx hline)
          have hp := strictUnder_pfx hs
          rw [hqeq] at hp
          have hjk : j = 0 + k := pfx_bank_eq hp
          rw [hjk]
          exact hbank
  exact cleanup_configfs_complete env sim fs₂ hPT q hq

/-- C3: teardown after failed activation leaves nothing behind.  If the
configfs base is located, nothing lies at or below the resolved simulator
directory beforehand, and `Builder::live` returns an error, then the
resulting filesystem again holds nothing at or below that directory: any
failure after the top-level directory was created runs `cleanup_configfs`
(the local `Sim` being dropped) before the error propagates, and failures
before creation leave the filesystem untouched. -/
theorem C3_failed_activation_no_leak (env : Env) (b : Builder) (fs : FS)
    (base : Path) (e : Error) (fs' : FS)
    (hfind : find_configfs env.loc = .ok base)
    (hclean : ∀ q ∈ fs.dirs, pfx (base ++ [Comp.seg (resolvedName env b)]) q = false)
    (h : b.live env fs = .err e fs') :
    ∀ q ∈ fs'.dirs, pfx (base ++ [Comp.seg (resolvedName env b)]) q = false := by
  simp only [Builder.live] at h
  rw [hfind] at h
  simp only [] at h
  by_cases hex : fs.dirExists (base ++ [Comp.seg (resolvedName env b)]) = true
  · rw [if_pos hex] at h
    injection h with h1 h2
    rw [← h2]
    exact hclean
  · rw [if_neg hex] at h
    rcases create_dir_cases env (base ++ [Comp.seg (resolvedName env b)]) fs with
      hcr | ⟨hnotin, hcr⟩
    · rw [hcr] at h
      simp only [] at h
      injection h with h1 h2
      rw [← h2]
      exact hclean
    · rw [hcr] at h
      simp only [] at h
      cases hlive : Sim.live env
        { name := resolvedName env b,
          chips := b.banks.map (fun bk =>
            { dev_path := [], chip_name := "", dev_name := "", sysfs_path := [], cfg := bk }),
          dir := base ++ [Comp.seg (resolvedName env b)] }
        (fs.addDir (base ++ [Comp.seg (resolvedName env b)])) with
      | ok s fs₁ => rw [hlive] at h; exact absurd h (by simp)
      | fatal m fs₁ => rw [hlive] at h; exact absurd h (by simp)
      | err e₁ fs₁ =>
        rw [hlive] at h
        injection h with h1 h2
        rw [← h2]
        exact live_err_cleanup_clears env _ fs hclean e₁ fs₁ hlive

theorem C3_witness :
    ((Res.state (Builder.live failEnv c3B emptyFS)).dirs.all
      (fun q => !(pfx (defaultConfigfsPath ++ [Comp.seg (resolvedName failEnv c3B)]) q)))
      = true := by
  have h := C3_failed_activation_no_leak failEnv c3B emptyFS defaultConfigfsPath .IoError
    (Res.state (Builder.live failEnv c3B emptyFS)) (by rfl) (by decide) (by rfl)
  rw [List.all_eq_true]
  intro q hq
  rw [h q hq]
  rfl

theorem Sim_live_ok_dirs (env : Env) (sim : Sim) (fs : FS) (s : Sim) (fs' : FS)
    (h : sim.live env fs = .ok s fs') :
    ∀ q ∈ fs.dirs, q ∈ fs'.dirs := by
  intro q hq
  simp only [Sim.live] at h
  cases hsetup : sim.setup_configfs env fs with
  | err e fs₀ => rw [hsetup] at h; exact absurd h (by simp [Res.bind])
  | fatal m fs₀ => rw [hsetup] at h; exact absurd h (by simp [Res.bind])
  | ok u fs₀ =>
    rw [hsetup] at h
    simp only [Res.bind_ok] at h
    have hst : (Res.state (setup_banks env sim.dir 0 (sim.chips.map Chip.cfg) fs)) = fs₀ := by
      rw [show setup_banks env sim.dir 0 (sim.chips.map Chip.cfg) fs =
        Sim.setup_configfs env sim fs from rfl, hsetup]
      rfl
    have hq₀ : q ∈ fs₀.dirs := by
      have hm := setup_banks_mono env sim.dir (sim.chips.map Chip.cfg) 0 fs q hq
      rw [hst] at hm
      exact hm
    cases hw : write_attr env sim.dir "live" "1" fs₀ with
    | err e fs₁ => rw [hw] at h; exact absurd h (by simp [Res.bind])
    | fatal m fs₁ => rw [hw] at h; exact absurd h (by simp [Res.bind])
    | ok u' fs₁ =>
      rw [hw] at h
      have hd₁ : fs₁.dirs = fs₀.dirs := by
        have := write_attr_state_dirs env sim.dir "live" "1" fs₀
        rw [hw] at this
        exact this
      simp only [Res.bind_ok, Sim.read_attrs, read_attr] at h
      cases hdn : env.readVal sim.dir "dev_name" with
      | none => rw [hdn] at h; exact absurd h (by simp [Res.bind])
      | some dn =>
        rw [hdn] at h
        simp only [Res.bind_ok] at h
        cases hrc : read_chips env sim.dir dn 0 sim.chips fs₁ with
        | err e fs₂ => rw [hrc] at h; exact absurd h (by simp [Res.bind])
        | fatal m fs₂ => rw [hrc] at h; exact absurd h (by simp [Res.bind])
        | ok cs fs₂ =>
          rw [hrc] at h
          simp only [Res.bind_ok] at h
          injection h with h1 h2
          have hst₂ := read_chips_state env sim.dir dn sim.chips 0 fs₁
          rw [hrc] at hst₂
          simp only [Res.state] at hst₂
          rw [← h2, hst₂, hd₁]
          exact hq₀

theorem Builder_live_ok_dir_mem (env : Env) (b : Builder) (fs : FS) (base : Path)
    (s : Sim) (fs₁ : FS)
    (hfind : find_configfs env.loc = .ok base)
    (h : b.live env fs = .ok s fs₁) :
    (base ++ [Comp.seg (resolvedName env b)]) ∈ fs₁.dirs := by
  simp only [Builder.live] at h
  rw [hfind] at h
  simp only [] at h
  by_cases hex : fs.dirExists (base ++ [Comp.seg (resolvedName env b)]) = true
  · rw [if_pos hex] at h; exact absurd h (by simp)
  · rw [if_neg hex] at h
    rcases create_dir_cases env (base ++ [Comp.seg (resolvedName env b)]) fs with
      hcr | ⟨hnotin, hcr⟩
    · rw [hcr] at h
      simp only [] at h
      exact absurd h (by simp)
    · rw [hcr] at h
      simp only [] at h
      cases hlive : Sim.live env
        { name := resolvedName env b,
          chips := b.banks.map (fun bk =>
            { dev_path := [], chip_name := "", dev_name := "", sysfs_path := [], cfg := bk }),
          dir := base ++ [Comp.seg (resolvedName env b)] }
        (fs.addDir (base ++ [Comp.seg (resolvedName env b)])) with
      | err e fsA => rw [hlive] at h; exact absurd h (by simp)
      | fatal m fsA => rw [hlive] at h; exact absurd h (by simp)
      | ok s₀ fsA =>
        rw [hlive] at h
        injection h with h1 h2
        rw [← h2]
        exact Sim_live_ok_dirs env _ _ s₀ fsA hlive
          (base ++ [Comp.seg (resolvedName env b)]) (List.mem_cons_self _ _)

/-- C4: an existing directory at the resolved path makes activation fail
immediately.  If a directory already exists at `base/name` then
`Builder::live` returns the `SimulatorExists` error carrying that name with
the filesystem untouched; in particular, after a successful activation a
second activation resolving to the same name fails with that error and
leaves the first activation's state unchanged. -/
theorem C4_existing_dir_fails (env : Env) (b b₂ : Builder) (fs : FS) (base : Path)
    (hfind : find_configfs env.loc = .ok base) :
    ((base ++ [Comp.seg (resolvedName env b)]) ∈ fs.dirs →
      b.live env fs = .err (.SimulatorExists (resolvedName env b)) fs)
    ∧ (∀ s fs₁, b.live env fs = .ok s fs₁ →
        resolvedName env b₂ = resolvedName env b →
        b₂.live env fs₁ = .err (.SimulatorExists (resolvedName env b₂)) fs₁) := by
  constructor
  · intro hex
    simp only [Builder.live]
    rw [hfind]
    simp only []
    rw [if_pos (dirExists_iff.mpr hex)]
  · intro s fs₁ hok hname
    have hmem : (base ++ [Comp.seg (resolvedName env b)]) ∈ fs₁.dirs :=
      Builder_live_ok_dir_mem env b fs base s fs₁ hfind hok
    simp only [Builder.live]
    rw [hfind]
    simp only []
    rw [hname]
    rw [if_pos (dirExists_iff.mpr hmem)]

theorem C4_witness :
    (c3B.live okEnv c4FS = .err (.SimulatorExists (resolvedName okEnv c3B)) c4FS)
    ∧ (c3B.live okEnv c4SecondFS =
        .err (.SimulatorExists (resolvedName okEnv c3B)) c4SecondFS) :=
  ⟨(C4_existing_dir_fails okEnv c3B c3B c4FS defaultConfigfsPath (by rfl)).1 (by decide),
   (C4_existing_dir_fails okEnv c3B c3B emptyFS defaultConfigfsPath (by rfl)).2
      c4FirstSim c4SecondFS (by decide) (by rfl)⟩

theorem line_inj {bank_dir : Path} {a b : Nat}
    (h : bank_dir ++ [Comp.line a] = bank_dir ++ [Comp.line b]) : a = b := by
  have h1 := List.append_cancel_left h
  simp at h1
  exact h1

theorem setup_names_log (env : Env) (bd : Path) :
    ∀ (ns : List (Nat × String)) (g g' : FS) (u : Unit),
      setup_names env bd ns g = .ok u g' →
      g'.log = g.log ++ specNamesTrace bd ns
      ∧ ∀ p ∈ ns, (bd ++ [Comp.line p.1]) ∈ g'.dirs := by
  intro ns
  induction ns with
  | nil =>
    intro g g' u h
    injection h with h1 h2
    rw [← h2]
    exact ⟨by simp [specNamesTrace], fun p hp => absurd hp (List.not_mem_nil p)⟩
  | cons na rest ih =>
    intro g g' u h
    obtain ⟨o, nm⟩ := na
    simp only [setup_names] at h
    rcases create_dir_cases env (bd ++ [Comp.line o]) g with hc | ⟨hni, hc⟩ <;> rw [hc] at h
    · rw [Res.bind_err] at h
      exact absurd h (by simp)
    · rw [Res.bind_ok] at h
      rcases write_attr_cases env (bd ++ [Comp.line o]) "name" nm
          (g.addDir (bd ++ [Comp.line o])) with hw | hw <;> rw [hw] at h
      · rw [Res.bind_err] at h
        exact absurd h (by simp)
      · rw [Res.bind_ok] at h
        obtain ⟨hlog, hmem⟩ := ih _ _ u h
        constructor
        · rw [hlog]
          simp [FS.addDir, FS.putAttr, specNamesTrace]
        · intro p hp
          rcases List.mem_cons.mp hp with rfl | hp'
          · have hin : (bd ++ [Comp.line (o, nm).1]) ∈
                ((g.addDir (bd ++ [Comp.line o])).putAttr
                  (bd ++ [Comp.line o]) "name" nm).dirs :=
              List.mem_cons_self _ _
            have hm := setup_names_mono env bd rest _ _ hin
            rw [h] at hm
            exact hm
          · exact hmem p hp'

theorem setup_hogs_log (env : Env) (bd : Path) (names : List (Nat × String)) :
    ∀ (hs : List (Nat × Hog)) (g g' : FS) (u : Unit),
      (keysOf hs).Nodup →
      (∀ p ∈ hs, ((bd ++ [Comp.line p.1]) ∈ g.dirs ↔ hasKey p.1 names = true)) →
      setup_hogs env bd hs g = .ok u g' →
      g'.log = g.log ++ specHogsTrace bd names hs := by
  intro hs
  induction hs with
  | nil =>
    intro g g' u _ _ h
    injection h with h1 h2
    rw [← h2]
    simp [specHogsTrace]
  | cons oh rest ih =>
    intro g g' u hnd hmem h
    obtain ⟨o, hh⟩ := oh
    simp only [setup_hogs] at h
    have hndr : (keysOf rest).Nodup := (List.nodup_cons.mp hnd).2
    have hno : o ∉ keysOf rest := (List.nodup_cons.mp hnd).1
    by_cases hk : hasKey o names = true
    · have hex : g.dirExists (bd ++ [Comp.line o]) = true :=
        dirExists_iff.mpr ((hmem (o, hh) (List.mem_cons_self _ _)).mpr hk)
      rw [if_pos hex, Res.bind_ok] at h
      rcases create_dir_cases env (bd ++ [Comp.line o, Comp.hogd]) g with
        hc | ⟨hni, hc⟩ <;> rw [hc] at h
      · rw [Res.bind_err] at h; exact absurd h (by simp)
      · rw [Res.bind_ok] at h
        rcases write_attr_cases env (bd ++ [Comp.line o, Comp.hogd]) "name" hh.consumer
            (g.addDir (bd ++ [Comp.line o, Comp.hogd])) with hw | hw <;> rw [hw] at h
        · rw [Res.bind_err] at h; exact absurd h (by simp)
        · rw [Res.bind_ok] at h
          rcases write_attr_cases env (bd ++ [Comp.line o, Comp.hogd]) "direction"
              hh.direction.as_str
              ((g.addDir (bd ++ [Comp.line o, Comp.hogd])).putAttr
                (bd ++ [Comp.line o, Comp.hogd]) "name" hh.consumer) with hw2 | hw2 <;>
            rw [hw2] at h
          · rw [Res.bind_err] at h; exact absurd h (by simp)
          · rw [Res.bind_ok] at h
            have hmem2 : ∀ p ∈ rest,
                ((bd ++ [Comp.line p.1]) ∈
                  (((g.addDir (bd ++ [Comp.line o, Comp.hogd])).putAttr
                    (bd ++ [Comp.line o, Comp.hogd]) "name" hh.consumer).putAttr
                    (bd ++ [Comp.line o, Comp.hogd]) "direction" hh.direction.as_str).dirs
                  ↔ hasKey p.1 names = true) := by
              intro p hp
              have hd3 : (((g.addDir (bd ++ [Comp.line o, Comp.hogd])).putAttr
                    (bd ++ [Comp.line o, Comp.hogd]) "name" hh.consumer).putAttr
                    (bd ++ [Comp.line o, Comp.hogd]) "direction" hh.direction.as_str).dirs =
                  (bd ++ [Comp.line o, Comp.hogd]) :: g.dirs := rfl
              rw [hd3]
              constructor
              · intro hin
                rcases List.mem_cons.mp hin with heq | hin2
                · exact absurd heq (line_ne_hog bd p.1 o)
                · exact (hmem p (List.mem_cons_of_mem _ hp)).mp hin2
              · intro hkk
                exact List.mem_cons_of_mem _ ((hmem p (List.mem_cons_of_mem _ hp)).mpr hkk)
            have hlog := ih _ _ u hndr hmem2 h
            rw [hlog]
            simp [FS.addDir, FS.putAttr, specHogsTrace, hk]
    · have hnex : ¬ (g.dirExists (bd ++ [Comp.line o]) = true) := by
        intro hT
        exact hk ((hmem (o, hh) (List.mem_cons_self _ _)).mp (dirExists_iff.mp hT))
      rw [if_neg hnex] at h
      rcases create_dir_cases env (bd ++ [Comp.line o]) g with hc | ⟨hni, hc⟩ <;>
        rw [hc] at h
      · rw [Res.bind_err] at h; exact absurd h (by simp)
      · rw [Res.bind_ok] at h
        rcases create_dir_cases env (bd ++ [Comp.line o, Comp.hogd])
            (g.addDir (bd ++ [Comp.line o])) with hc2 | ⟨hni2, hc2⟩ <;> rw [hc2] at h
        · rw [Res.bind_err] at h; exact absurd h (by simp)
        · rw [Res.bind_ok] at h
          rcases write_attr_cases env (bd ++ [Comp.line o, Comp.hogd]) "name" hh.consumer
              ((g.addDir (bd ++ [Comp.line o])).addDir (bd ++ [Comp.line o, Comp.hogd]))
              with hw | hw <;> rw [hw] at h
          · rw [Res.bind_err] at h; exact absurd h (by simp)
          · rw [Res.bind_ok] at h
            rcases write_attr_cases env (bd ++ [Comp.line o, Comp.hogd]) "direction"
                hh.direction.as_str
                (((g.addDir (bd ++ [Comp.line o])).addDir
                  (bd ++ [Comp.line o, Comp.hogd])).putAttr
                  (bd ++ [Comp.line o, Comp.hogd]) "name" hh.consumer) with hw2 | hw2 <;>
              rw [hw2] at h
            · rw [Res.bind_err] at h; exact absurd h (by simp)
            · rw [Res.bind_ok] at h
              have hmem2 : ∀ p ∈ rest,
                  ((bd ++ [Comp.line p.1]) ∈
                    ((((g.addDir (bd ++ [Comp.line o])).addDir
                      (bd ++ [Comp.line o, Comp.hogd])).putAttr
                      (bd ++ [Comp.line o, Comp.hogd]) "name" hh.consumer).putAttr
                      (bd ++ [Comp.line o, Comp.hogd]) "direction" hh.direction.as_str).dirs
                    ↔ hasKey p.1 names = true) := by
                intro p hp
                have hd4 : ((((g.addDir (bd ++ [Comp.line o])).addDir
                      (bd ++ [Comp.line o, Comp.hogd])).putAttr
                      (bd ++ [Comp.line o, Comp.hogd]) "name" hh.consumer).putAttr
                      (bd ++ [Comp.line o, Comp.hogd]) "direction"
                      hh.direction.as_str).dirs =
                    (bd ++ [Comp.line o, Comp.hogd]) :: (bd ++ [Comp.line o]) :: g.dirs :=
                  rfl
                rw [hd4]
                constructor
                · intro hin
                  rcases List.mem_cons.mp hin with heq | hin2
                  · exact absurd heq (line_ne_hog bd p.1 o)
                  · rcases List.mem_cons.mp hin2 with heq2 | hin3
                    · exfalso
                      apply hno
                      rw [← line_inj heq2]
                      exact List.mem_map_of_mem Prod.fst hp
                    · exact (hmem p (List.mem_cons_of_mem _ hp)).mp hin3
                · intro hkk
                  exact List.mem_cons_of_mem _ (List.mem_cons_of_mem _
                    ((hmem p (List.mem_cons_of_mem _ hp)).mpr hkk))
              have hlog := ih _ _ u hndr hmem2 h
              rw [hlog]
              have hkf : hasKey o names = false := by
                rw [Bool.eq_false_iff]
                exact hk
              simp [FS.addDir, FS.putAttr, specHogsTrace, hkf]

theorem setup_banks_log (env : Env) (dir : Path) :
    ∀ (cs : List Bank) (i : Nat) (g g' : FS) (u : Unit),
      (∀ c ∈ cs, (keysOf c.hogs).Nodup) →
      (∀ q ∈ g.dirs, ∀ j, pfx (dir ++ [Comp.bank (i + j)]) q = false) →
      setup_banks env dir i cs g = .ok u g' →
      g'.log = g.log ++ specTraceFrom dir i cs := by
  intro cs
  induction cs with
  | nil =>
    intro i g g' u _ _ h
    injection h with h1 h2
    rw [← h2]
    simp [specTraceFrom]
  | cons c rest ih =>
    intro i g g' u hnd hcln h
    simp only [setup_banks] at h
    rcases create_dir_cases env (dir ++ [Comp.bank i]) g with hc | ⟨hni, hc⟩ <;> rw [hc] at h
    · rw [Res.bind_err] at h; exact absurd h (by simp)
    · rw [Res.bind_ok] at h
      rcases write_attr_cases env (dir ++ [Comp.bank i]) "label" c.label
          (g.addDir (dir ++ [Comp.bank i])) with hw1 | hw1 <;> rw [hw1] at h
      · rw [Res.bind_err] at h; exact absurd h (by simp)
      · rw [Res.bind_ok] at h
        rcases write_attr_cases env (dir ++ [Comp.bank i]) "num_lines"
            (natDecimal c.num_lines)
            ((g.addDir (dir ++ [Comp.bank i])).putAttr
              (dir ++ [Comp.bank i]) "label" c.label) with hw2 | hw2 <;> rw [hw2] at h
        · rw [Res.bind_err] at h; exact absurd h (by simp)
        · rw [Res.bind_ok] at h
          cases hnames : setup_names env (dir ++ [Comp.bank i]) c.names
              (((g.addDir (dir ++ [Comp.bank i])).putAttr
                (dir ++ [Comp.bank i]) "label" c.label).putAttr
                (dir ++ [Comp.bank i]) "num_lines" (natDecimal c.num_lines)) with
          | err e g₄ => rw [hnames, Res.bind_err] at h; exact absurd h (by simp)
          | fatal m g₄ => rw [hnames, Res.bind_fatal] at h; exact absurd h (by simp)
          | ok u₄ g₄ =>
            rw [hnames, Res.bind_ok] at h
            obtain ⟨hlogN, hmemN⟩ := setup_names_log env (dir ++ [Comp.bank i]) c.names
              _ g₄ u₄ hnames
            cases hhogs : setup_hogs env (dir ++ [Comp.bank i]) c.hogs g₄ with
            | err e g₅ => rw [hhogs, Res.bind_err] at h; exact absurd h (by simp)
            | fatal m g₅ => rw [hhogs, Res.bind_fatal] at h; exact absurd h (by simp)
            | ok u₅ g₅ =>
              rw [hhogs, Res.bind_ok] at h
              have hg3dirs : ((((g.addDir (dir ++ [Comp.bank i])).putAttr
                    (dir ++ [Comp.bank i]) "label" c.label).putAttr
                    (dir ++ [Comp.bank i]) "num_lines" (natDecimal c.num_lines))).dirs =
                  (dir ++ [Comp.bank i]) :: g.dirs := rfl
              have hmemH : ∀ p ∈ c.hogs,
                  ((dir ++ [Comp.bank i] ++ [Comp.line p.1]) ∈ g₄.dirs ↔
                    hasKey p.1 c.names = true) := by
                intro p hp
                constructor
                · intro hin
                  have hpv4 := setup_names_prov env (dir ++ [Comp.bank i]) c.names
                    (((g.addDir (dir ++ [Comp.bank i])).putAttr
                      (dir ++ [Comp.bank i]) "label" c.label).putAttr
                      (dir ++ [Comp.bank i]) "num_lines" (natDecimal c.num_lines)) (dir ++ [Comp.bank i] ++ [Comp.line p.1])
                  rw [hnames] at hpv4
                  simp only [Res.state] at hpv4
                  rcases hpv4 hin with hq3 | ⟨o, hko, heq⟩
                  · rw [hg3dirs] at hq3
                    rcases List.mem_cons.mp hq3 with heq2 | hqg
                    · exfalso
                      have hlen := congrArg List.length heq2
                      simp at hlen
                    · exfalso
                      have hp0 := hcln _ hqg 0
                      rw [Nat.add_zero] at hp0
                      rw [pfx_append] at hp0
                      exact Bool.noConfusion hp0
                  · rw [line_inj heq]
                    exact hko
                · intro hkk
                  simp only [hasKey, List.any_eq_true, beq_iff_eq] at hkk
                  obtain ⟨pn, hpn, hpq⟩ := hkk
                  have := hmemN pn hpn
                  rw [hpq] at this
                  exact this
              have hlogH := setup_hogs_log env (dir ++ [Comp.bank i]) c.names c.hogs
                g₄ g₅ u₅ (hnd c (List.mem_cons_self _ _)) hmemH hhogs
              have hcln5 : ∀ q ∈ g₅.dirs, ∀ j,
                  pfx (dir ++ [Comp.bank (i + 1 + j)]) q = false := by
                intro q hq j
                have hpv5 := setup_hogs_prov env (dir ++ [Comp.bank i]) c.hogs g₄ q
                rw [hhogs] at hpv5
                simp only [Res.state] at hpv5
                rcases hpv5 hq with hq4 | ⟨o, hko, hqe | hqe⟩
                · have hpv4 := setup_names_prov env (dir ++ [Comp.bank i]) c.names
                    (((g.addDir (dir ++ [Comp.bank i])).putAttr
                      (dir ++ [Comp.bank i]) "label" c.label).putAttr
                      (dir ++ [Comp.bank i]) "num_lines" (natDecimal c.num_lines)) q
                  rw [hnames] at hpv4
                  simp only [Res.state] at hpv4
                  rcases hpv4 hq4 with hq3 | ⟨o, hko, hqe⟩
                  · rw [hg3dirs] at hq3
                    rcases List.mem_cons.mp hq3 with heq2 | hqg
                    · subst heq2
                      rw [Bool.eq_false_iff]
                      intro hT
                      have hbe := pfx_bank_eq (t := ([] : Path)) (by simpa using hT)
                      omega
                    · have hgq := hcln q hqg (j + 1)
                      have harith : i + (j + 1) = i + 1 + j := by omega
                      rw [harith] at hgq
                      exact hgq
                  · subst hqe
                    rw [Bool.eq_false_iff]
                    intro hT
                    have hbe := pfx_bank_eq hT
                    omega
                · subst hqe
                  rw [Bool.eq_false_iff]
                  intro hT
                  have hbe := pfx_bank_eq hT
                  omega
                · subst hqe
                  rw [Bool.eq_false_iff]
                  intro hT
                  have hbe := pfx_bank_eq hT
                  omega
              have hlogR := ih (i + 1) g₅ g' u
                (fun c' hc' => hnd c' (List.mem_cons_of_mem _ hc')) hcln5 h
              rw [hlogR, hlogH, hlogN]
              have hg3log : ((((g.addDir (dir ++ [Comp.bank i])).putAttr
                    (dir ++ [Comp.bank i]) "label" c.label).putAttr
                    (dir ++ [Comp.bank i]) "num_lines" (natDecimal c.num_lines))).log =
                  g.log ++ [Event.mkdir (dir ++ [Comp.bank i]),
                    Event.wattr (dir ++ [Comp.bank i]) "label" c.label,
                    Event.wattr (dir ++ [Comp.bank i]) "num_lines"
                      (natDecimal c.num_lines)] := by
                simp [FS.addDir, FS.putAttr]
              rw [hg3log]
              simp [specTraceFrom, specBankTrace, List.append_assoc]

/-- C6: activation writes the configfs tree exactly as the specification
prescribes.  For a clean target area (no bank directory content pre-exists)
and per-bank hog maps with distinct keys, a successful `Sim::live` appends to
the write log exactly, in order: for each bank in configuration order its
`bank<i>` directory, `label` and `num_lines` attributes, the `line<offset>`
directory and `name` attribute of every named offset, the (created or, when
the offset is also named, reused) `line<offset>` directory, nested hog
directory, consumer `name` and direction string of every hogged offset — and
only after the whole tree, the value `"1"` to the top-level `live`
attribute. -/
theorem C6_setup_trace_matches_spec (env : Env) (sim : Sim) (fs : FS) (s : Sim) (fs' : FS)
    (hnd : ∀ c ∈ sim.chips.map Chip.cfg, (keysOf c.hogs).Nodup)
    (hcln : ∀ q ∈ fs.dirs, ∀ j, pfx (sim.dir ++ [Comp.bank j]) q = false)
    (h : sim.live env fs = .ok s fs') :
    fs'.log = fs.log ++ specTraceFrom sim.dir 0 (sim.chips.map Chip.cfg)
      ++ [Event.wattr sim.dir "live" "1"] := by
  simp only [Sim.live] at h
  cases hsetup : sim.setup_configfs env fs with
  | err e fs₀ => rw [hsetup] at h; exact absurd h (by simp [Res.bind])
  | fatal m fs₀ => rw [hsetup] at h; exact absurd h (by simp [Res.bind])
  | ok u fs₀ =>
    rw [hsetup] at h
    simp only [Res.bind_ok] at h
    have hlog₀ : fs₀.log = fs.log ++ specTraceFrom sim.dir 0 (sim.chips.map Chip.cfg) :=
      setup_banks_log env sim.dir (sim.chips.map Chip.cfg) 0 fs fs₀ u hnd
        (by
          intro q hq j
          rw [Nat.zero_add]
          exact hcln q hq j)
        (by
          rw [show setup_banks env sim.dir 0 (sim.chips.map Chip.cfg) fs =
            Sim.setup_configfs env sim fs from rfl]
          exact hsetup)
    rcases write_attr_cases env sim.dir "live" "1" fs₀ with hw | hw <;> rw [hw] at h
    · rw [Res.bind_err] at h; exact absurd h (by simp)
    · rw [Res.bind_ok] at h
      simp only [Sim.read_attrs, read_attr] at h
      cases hdn : env.readVal sim.dir "dev_name" with
      | none => rw [hdn] at h; exact absurd h (by simp [Res.bind])
      | some dn =>
        rw [hdn] at h
        simp only [Res.bind_ok] at h
        cases hrc : read_chips env sim.dir dn 0 sim.chips
            (fs₀.putAttr sim.dir "live" "1") with
        | err e fs₂ => rw [hrc] at h; exact absurd h (by simp [Res.bind])
        | fatal m fs₂ => rw [hrc] at h; exact absurd h (by simp [Res.bind])
        | ok cs fs₂ =>
          rw [hrc] at h
          simp only [Res.bind_ok] at h
          injection h with h1 h2
          have hst₂ := read_chips_state env sim.dir dn sim.chips 0
            (fs₀.putAttr sim.dir "live" "1")
          rw [hrc] at hst₂
          simp only [Res.state] at hst₂
          rw [← h2, hst₂]
          have hpl : (fs₀.putAttr sim.dir "live" "1").log =
              fs₀.log ++ [Event.wattr sim.dir "live" "1"] := by
            simp [FS.putAttr]
          rw [hpl, hlog₀]

theorem C6_witness :
    (Res.state (Sim.live okEnv c6Sim c6FS)).log =
      c6FS.log ++ specTraceFrom c6Sim.dir 0 (c6Sim.chips.map Chip.cfg)
        ++ [Event.wattr c6Sim.dir "live" "1"] :=
  C6_setup_trace_matches_spec okEnv c6Sim c6FS c6ResultSim
    (Res.state (Sim.live okEnv c6Sim c6FS))
    (by decide)
    (by
      intro q hq j
      simp only [c6FS, List.mem_singleton] at hq
      subst hq
      simp [c6Sim, pfx])
    (by rfl)
